import Mathlib

/-!
Verification of the elba package-manager core against its specification.

Each Rust function relevant to the checked claims is shallowly embedded as an
executable Lean definition, translated from the source under `src/`:

* `src/lib/build/mod.rs` — `Target`, `Targets::new`, `compile_bin`;
* `src/lib/package/resolution.rs` — `DirectRes::retrieve`, `DirectRes::from_str`;
* `src/lib/retrieve/mod.rs` — `Retriever::best`, `Retriever::incompats`;
* `src/lib/build/job.rs` — the completion-handling step of `JobQueue::exec`;
* `src/lib/package/lockfile.rs` — the `Graph<Summary>` ↔ `LockfileToml` conversions.

External collaborators (the semver constraint algebra, the registry index, the
cache, the compiler and the graph utility module) are not part of the sources;
where a definition depends on them it is either parameterised by an oracle
function or modelled from the specification, and each such place is marked.
-/

namespace Elba

/-! ### Semantic versions

Modelled from the spec: `Version` (package/version.rs is not among the sources)
follows semantic versioning with prerelease ordering; a version with a nonempty
prerelease list sorts below the same major.minor.patch without one.  Prerelease
identifiers are modelled as numeric fields compared lexicographically. -/

structure Version where
  major : Nat
  minor : Nat
  patch : Nat
  pre : List Nat
  deriving DecidableEq, Repr

instance : Inhabited Version := ⟨⟨0, 0, 0, []⟩⟩

/-- Lexicographic comparison of numeric prerelease identifier lists. -/
def preListLeB : List Nat → List Nat → Bool
  | [], _ => true
  | _ :: _, [] => false
  | x :: xs, y :: ys => if x ≠ y then decide (x < y) else preListLeB xs ys

/-- Modelled from the spec: semver `≤` with prerelease ordering. -/
def Version.leB (a b : Version) : Bool :=
  if a.major ≠ b.major then decide (a.major < b.major)
  else if a.minor ≠ b.minor then decide (a.minor < b.minor)
  else if a.patch ≠ b.patch then decide (a.patch < b.patch)
  else
    match a.pre, b.pre with
    | [], [] => true
    | [], _ :: _ => false
    | _ :: _, [] => true
    | p, q => preListLeB p q

/-- `Version::is_prerelease`: a version is a prerelease iff its prerelease
list is nonempty. -/
def Version.isPre (v : Version) : Bool :=
  !v.pre.isEmpty

/-! ### Build targets (`src/lib/build/mod.rs`)

`Target` is the Rust enum `Lib | Bin(usize) | Test(usize) | Doc`; its derived
`Ord` compares the variant tag first (in declaration order) and the payload
second, which we encode through `Target.key`. -/

inductive Target where
  | lib
  | bin (i : Nat)
  | test (i : Nat)
  | doc
  deriving DecidableEq, Repr

/-- The derived Rust ordering on `Target`: variant tag, then payload. -/
def Target.key : Target → Nat × Nat
  | .lib => (0, 0)
  | .bin i => (1, i)
  | .test i => (2, i)
  | .doc => (3, 0)

/-- `a ≤ b` in the derived `Ord` of the Rust `Target` enum. -/
def Target.tle (a b : Target) : Prop :=
  a.key.1 < b.key.1 ∨ (a.key.1 = b.key.1 ∧ a.key.2 ≤ b.key.2)

instance : DecidableRel Target.tle := fun a b => by
  unfold Target.tle; infer_instance

instance : IsTotal Target Target.tle where
  total a b := by
    rcases Nat.lt_trichotomy a.key.1 b.key.1 with h | h | h
    · exact Or.inl (Or.inl h)
    · rcases Nat.le_total a.key.2 b.key.2 with h2 | h2
      · exact Or.inl (Or.inr ⟨h, h2⟩)
      · exact Or.inr (Or.inr ⟨h.symm, h2⟩)
    · exact Or.inr (Or.inl h)

instance : IsTrans Target Target.tle where
  trans a b c hab hbc := by
    rcases hab with h1 | ⟨e1, l1⟩
    · rcases hbc with h2 | ⟨e2, _⟩
      · exact Or.inl (h1.trans h2)
      · exact Or.inl (e2 ▸ h1)
    · rcases hbc with h2 | ⟨e2, l2⟩
      · exact Or.inl (e1 ▸ h2)
      · exact Or.inr ⟨e1.trans e2, l1.trans l2⟩

/-- `Vec::sort` on targets (Rust's stable sort, modelled by insertion sort). -/
def sortTargets (ts : List Target) : List Target :=
  List.insertionSort Target.tle ts

/-- One iteration of the `for i in ts` loop body of `Targets::new`
(src/lib/build/mod.rs:68-94).  The accumulator is `(res, seen_lib)`;
`res.insert(0, Lib)` followed by `res.push(i)` becomes
`Target.lib :: (res ++ [i])`. -/
def Targets.newStep (acc : List Target × Bool) (t : Target) : List Target × Bool :=
  match t with
  | .lib => if acc.2 then acc else (acc.1 ++ [Target.lib], true)
  | .bin i => (acc.1 ++ [Target.bin i], acc.2)
  | .test i =>
    if acc.2 then acc else (Target.lib :: (acc.1 ++ [Target.test i]), true)
  | .doc =>
    if acc.2 then acc else (Target.lib :: (acc.1 ++ [Target.doc]), true)

/-- `Targets::new` (src/lib/build/mod.rs:61-97): sort the input then fold the
loop body over it, starting from an empty `res` and `seen_lib = false`. -/
def Targets.new (ts : List Target) : List Target :=
  ((sortTargets ts).foldl Targets.newStep ([], false)).1

/-! ### Errors and checksums (`src/lib/package/resolution.rs`, `src/lib/util/mod.rs`)

The error kinds below are the ones the embedded functions mention
(`util/errors.rs` is not among the sources; the spec lists the kinds). -/

inductive ErrorKind where
  | cannotDownload
  | checksum
  | invalidSourceUrl
  | packageNotFound
  | notImplemented
  deriving DecidableEq, Repr

/-- Modelled from the spec: a `Checksum` is the parsed form of a URL fragment
`sha256:<hex>` — a format key and a hash string (`package/mod.rs` is not among
the sources). -/
structure Checksum where
  fmt : String
  hash : String
  deriving DecidableEq, Repr

/-- Split a character list at the first occurrence of `sep`; the second
component is `none` when `sep` does not occur (Rust `splitn(2, sep)` with one
or two pieces). -/
def splitFirst (sep : Char) : List Char → List Char × Option (List Char)
  | [] => ([], none)
  | c :: cs =>
    if c = sep then ([], some cs)
    else
      let r := splitFirst sep cs
      (c :: r.1, r.2)

/-- Modelled from the spec: `Checksum::from_str` splits the fragment at the
first `:` into the checksum format key and the hash. -/
def Checksum.fromStr (s : String) : Option Checksum :=
  match splitFirst ':' s.toList with
  | (_, none) => none
  | (fmt, some rest) => some ⟨⟨fmt⟩, ⟨rest⟩⟩

/-- `hexify_hash` (src/lib/util/mod.rs:7-14): each byte is rendered as two
lowercase hex digits. -/
def hexDigit (n : Nat) : Char :=
  if n < 10 then Char.ofNat (48 + n) else Char.ofNat (87 + n)

/-- One byte as the two hex characters produced by Rust `format "02x"`. -/
def hexByte (b : Nat) : List Char :=
  [hexDigit ((b / 16) % 16), hexDigit (b % 16)]

/-- The hex string of a byte list, as `hexify_hash` builds it. -/
def hexify_hash (bytes : List Nat) : String :=
  ⟨bytes.foldl (fun s b => s ++ hexByte b) []⟩

/-- The `DirectRes::Tar` branch of `DirectRes::retrieve`
(src/lib/package/resolution.rs:88-136).  External effects are parameters:
`digest` is the SHA-256 function (sha2 crate), `fetch` the downloaded (or
opened) byte buffer (`none` = network/open failure), `unpackOk` whether tar
extraction succeeds.  Both the `http`/`https` and `file` arms hash the buffer,
compare it against the declared checksum, and unpack; the comparison is
translated exactly as written in the source: it errors with
`ErrorKind::Checksum` when the declared hash EQUALS the computed hash. -/
def DirectRes.retrieveTar (digest : List Nat → List Nat) (scheme : String)
    (fetch : Option (List Nat)) (cksum : Option Checksum) (unpackOk : Bool) :
    Except ErrorKind Unit :=
  if scheme = "http" ∨ scheme = "https" ∨ scheme = "file" then
    match fetch with
    | none => .error .cannotDownload
    | some buf =>
      let hash := hexify_hash (digest buf)
      match cksum with
      | some c =>
        if c.hash = hash then .error .checksum
        else if unpackOk then .ok () else .error .cannotDownload
      | none => if unpackOk then .ok () else .error .cannotDownload
  else .error .cannotDownload

/-! ### Resolution URLs (`src/lib/package/resolution.rs`) -/

/-- A parsed URL, modelled from the url crate (external): scheme before the
first `:`, an optional fragment after the first `#`. -/
structure Url where
  scheme : String
  rest : String
  fragment : Option String
  deriving DecidableEq, Repr

/-- Modelled `Url::parse` (url crate, external): strip the fragment, read the
scheme up to the first `:`; fail when there is no `:` or the scheme is
empty. -/
def Url.parse (s : String) : Option Url :=
  let bodyFrag := splitFirst '#' s.toList
  match splitFirst ':' bodyFrag.1 with
  | (_, none) => none
  | (sch, some rest) =>
    if sch.isEmpty then none
    else some ⟨⟨sch⟩, ⟨rest⟩, bodyFrag.2.map (fun f => ⟨f⟩)⟩

inductive DirectRes where
  | git (repo : Url) (tag : String)
  | dir (url : Url)
  | tar (url : Url) (cksum : Option Checksum)
  deriving DecidableEq, Repr

/-- `DirectRes::from_str` (src/lib/package/resolution.rs:159-191).  The
`git` arm is `unimplemented!` in the source (a panic), modelled as a distinct
error.  The `tar` arm's scheme test is translated exactly as written:
`url.scheme() != "http" || url.scheme() != "https" || url.scheme() != "file"`. -/
def DirectRes.fromStr (s : String) : Except ErrorKind DirectRes :=
  let parts := splitFirst '+' s.toList
  match parts.2 with
  | none => .error .invalidSourceUrl
  | some rest =>
    let utype : String := ⟨parts.1⟩
    let urlStr : String := ⟨rest⟩
    if utype = "git" then .error .notImplemented
    else if utype = "dir" then
      match Url.parse urlStr with
      | none => .error .invalidSourceUrl
      | some u =>
        if u.scheme ≠ "file" then .error .invalidSourceUrl
        else .ok (.dir u)
    else if utype = "tar" then
      match Url.parse urlStr with
      | none => .error .invalidSourceUrl
      | some u =>
        if u.scheme ≠ "http" ∨ u.scheme ≠ "https" ∨ u.scheme ≠ "file" then
          .error .invalidSourceUrl
        else
          let cksum := u.fragment.bind (fun f => Checksum.fromStr f)
          .ok (.tar { u with fragment := none } cksum)
    else .error .invalidSourceUrl

/-! ### Package identities (`src/lib/package/`) -/

/-- `Resolution`: `Direct`, `Index` or `Root`; the payloads (a `DirectRes`
resp. an `IndexRes` registry URL) are abstracted to tags, which is all
`Retriever::best` and the lockfile conversions inspect. -/
inductive Res where
  | direct (loc : Nat)
  | index (registry : Nat)
  | root
  deriving DecidableEq, Repr

/-- `PackageId`: a name paired with its resolution. -/
structure PackageId where
  name : Nat
  resolution : Res
  deriving DecidableEq, Repr

/-- `Summary`: a package id with a version; equality is over both fields. -/
structure Summary where
  id : PackageId
  version : Version
  deriving DecidableEq, Repr

instance : Inhabited Summary := ⟨⟨⟨0, Res.root⟩, default⟩⟩

/-! ### `Retriever::best` (src/lib/retrieve/mod.rs:95-164) -/

/-- `Retriever::best`.  `con` is `Constraint::satisfies` (package/version.rs
is not among the sources, so the constraint is abstracted to its satisfaction
predicate); `lockfile` stands for `self.lockfile.find_by(|sum| sum.id == *pkg)`
performed on the flat node list; `checkout` models
`cache.checkout_source(pkg, dir, Some(v))` in the lockfile branch — it yields
the checked-out manifest's version, or `none` when lookup/checkout fails;
`directVer` models the `checkout_source(pkg, loc, None)` of the `Direct`
branch; `entries` is the version list of `indices.entries(pkg)` in index
order; `rootVer` is `self.root.version`. -/
def Retriever.best (lockfile : List Summary) (checkout : Version → Option Version)
    (directVer : Except ErrorKind Version) (rootVer : Version)
    (entries : List Version) (pkg : PackageId) (con : Version → Bool)
    (minimize : Bool) : Except ErrorKind Version :=
  let lockedResult :=
    match (List.find? (fun s => decide (s.id = pkg)) lockfile).map Summary.version with
    | some v => if con v then checkout v else none
    | none => none
  match lockedResult with
  | some mv => .ok mv
  | none =>
    match pkg.resolution with
    | .direct _ => directVer
    | .root => .ok rootVer
    | .index _ =>
      let sats := entries.filter con
      let parts := sats.partition Version.isPre
      match parts.2 with
      | v :: vs => .ok (if minimize then v else vs.getLastD v)
      | [] =>
        match parts.1 with
        | w :: ws => .ok (if minimize then w else ws.getLastD w)
        | [] => .error .packageNotFound

/-! ### `Retriever::incompats`, `Index` case (src/lib/retrieve/mod.rs:197-280)

The constraint algebra (`Constraint`, `Relation` in package/version.rs) is not
among the sources; the scan only ever calls `dep.req.relation(&new_dep.req)`
and compares the result against `Relation::Equal` / `Relation::Superset`, and
`dep.req.complement()`, so constraints are abstracted to a type `Req` together
with a `relation` and a `complement` oracle. -/

inductive Relation where
  | superset
  | subset
  | overlapping
  | disjoint
  | equal
  deriving DecidableEq, Repr

/-- A dependency entry of an index record: target name, registry, and the
declared constraint. -/
structure Dep (Req : Type) where
  name : Nat
  index : Nat
  req : Req
  deriving DecidableEq, Repr

/-- One version's record in the index: its declared dependencies. -/
structure IndexEntry (Req : Type) where
  dependencies : List (Dep Req)
  deriving DecidableEq, Repr

/-- The indexed versions of one package, in index (ascending version) order —
`indices.entries(pkg.id())`, an `IndexMap<Version, IndexEntry>`. -/
abbrev Entries (Req : Type) := List (Version × IndexEntry Req)

/-- The inner `for new_dep in new_deps` loop shared by both scan directions
(src/lib/retrieve/mod.rs:218-228 and 240-250).  The accumulator is
`(seen, bound)` where `bound` is the outer mutable `lower` resp. `upper`;
a matching dep that refines sets `seen` and moves the bound to the scanned
version, a matching dep that does not refine clears `seen` and leaves the
bound, a non-matching dep changes nothing. -/
def depScanStep {Req : Type} (relation : Req → Req → Relation) (dep : Dep Req)
    (newVer : Version) (acc : Bool × Version) (nd : Dep Req) : Bool × Version :=
  if dep.name = nd.name ∧ dep.index = nd.index then
    if relation dep.req nd.req = Relation.equal ∨
        relation dep.req nd.req = Relation.superset then
      (true, newVer)
    else
      (false, acc.2)
  else acc

/-- The accumulated inner loop over a scanned version's dependency list. -/
def depScan {Req : Type} (relation : Req → Req → Relation) (dep : Dep Req)
    (newVer : Version) (newDeps : List (Dep Req)) (bound : Version) :
    Bool × Version :=
  newDeps.foldl (depScanStep relation dep newVer) (false, bound)

/-- The `while lix > 0` downward scan (src/lib/retrieve/mod.rs:213-233).
With current index `k+1` the body examines `entries[k]`; on `seen` it
continues there, otherwise it restores the index and breaks.  Returns the
final `(lix, lower)`. -/
def scanLeft {Req : Type} (relation : Req → Req → Relation)
    (entries : Entries Req) (dep : Dep Req) :
    Nat → Version → Nat × Version
  | 0, lower => (0, lower)
  | k + 1, lower =>
    let new := entries.getD k (default, ⟨[]⟩)
    let r := depScan relation dep new.1 new.2.dependencies lower
    if r.1 then scanLeft relation entries dep k r.2 else (k + 1, r.2)

/-- The `while rix < l - 1` upward scan (src/lib/retrieve/mod.rs:235-255),
with `gas = (l - 1) - rix` making the loop bound structural.  Returns the
final `(rix, upper)`. -/
def scanRightAux {Req : Type} (relation : Req → Req → Relation)
    (entries : Entries Req) (dep : Dep Req) :
    Nat → Nat → Version → Nat × Version
  | 0, rix, upper => (rix, upper)
  | gas + 1, rix, upper =>
    let new := entries.getD (rix + 1) (default, ⟨[]⟩)
    let r := depScan relation dep new.1 new.2.dependencies upper
    if r.1 then scanRightAux relation entries dep gas (rix + 1) r.2
    else (rix, r.2)

/-- The upward scan started from the chosen index `ix` with `l` entries. -/
def scanRight {Req : Type} (relation : Req → Req → Relation)
    (entries : Entries Req) (dep : Dep Req) (l ix : Nat) (upper : Version) :
    Nat × Version :=
  scanRightAux relation entries dep (l - 1 - ix) ix upper

/-- `Interval` from package/version.rs (not among the sources), as used by the
scan: `Unbounded` or `Closed(version, flag)` — the source always passes
`false` for the flag. -/
inductive Interval where
  | unbounded
  | closed (v : Version) (flag : Bool)
  deriving DecidableEq, Repr

/-- The incompatibility emitted for one dependency: the range over the
package itself and the complement of the dependency's constraint (the
`indexmap!` at src/lib/retrieve/mod.rs:271-274). -/
structure Incompat (Req : Type) where
  lo : Interval
  hi : Interval
  depName : Nat
  depIndex : Nat
  depCon : Req
  deriving DecidableEq, Repr

/-- `entries.get_full(pkg.version())`: the position of the chosen version in
the index, with its record. -/
def getFull {Req : Type} (entries : Entries Req) (ver : Version) :
    Option (Nat × IndexEntry Req) :=
  (List.findIdx? (fun e => decide (e.1 = ver)) entries).map
    (fun ix => (ix, (entries.getD ix (default, ⟨[]⟩)).2))

/-- The `Resolution::Index` case of `Retriever::incompats`
(src/lib/retrieve/mod.rs:197-280): one incompatibility per dependency declared
at the chosen version, whose range over the package is delimited by the two
scans; both interval ends become `Unbounded` exactly when the scans reached
both ends of the index.  `Range::new(nl, nu).unwrap()` (missing
package/version.rs) is modelled as the pair of intervals. -/
def incompatsIndex {Req : Type} (relation : Req → Req → Relation)
    (complement : Req → Req) (entries : Entries Req) (ver : Version) :
    Except ErrorKind (List (Incompat Req)) :=
  match getFull entries ver with
  | none => .error .packageNotFound
  | some (ix, entry) =>
    let l := entries.length
    .ok (entry.dependencies.map (fun dep =>
      let left := scanLeft relation entries dep ix ver
      let right := scanRight relation entries dep l ix ver
      let nl : Interval :=
        if left.1 = 0 ∧ right.1 = l - 1 then .unbounded
        else .closed left.2 false
      let nu : Interval :=
        if left.1 = 0 ∧ right.1 = l - 1 then .unbounded
        else .closed right.2 false
      ⟨nl, nu, dep.name, dep.index, complement dep.req⟩))

/-! ### `compile_bin` (src/lib/build/mod.rs:151-202)

The compiler and code generator are external subprocesses; they appear as an
oracle `exec` deciding whether an invocation succeeds, and the produced trace
records the invocations attempted, in order.  A manifest's `targets.bin` and
`targets.test` lists are the `BinTarget` records the function indexes into. -/

/-- The fields of a manifest `BinTarget` / `TestTarget` that `compile_bin`
reads: the output name and the main module path. -/
structure BinTarget where
  name : String
  main : String
  deriving DecidableEq, Repr

/-- The target sections of a parsed manifest (`Targets` in
src/lib/package/manifest.rs:163-169, with `lib` elided — `compile_bin` never
reads it). -/
structure ManifestTargets where
  bin : List BinTarget
  test : List BinTarget
  deriving DecidableEq, Repr

/-- A compiler subprocess invocation: the `CompileInvocation` on the target's
main module, or the `CodegenInvocation` on its binary. -/
inductive Invocation where
  | compile (main : String)
  | codegen (binary : String) (output : String)
  deriving DecidableEq, Repr

/-- `compile_bin`.  Returns the invocation trace and the result.  `Lib` and
`Doc` targets bail immediately (`compile_bin called with non-binary target`)
with an empty trace; `Bin(ix)` and `Test(ix)` read the `ix`-th entry of the
manifest's bin resp. test list (the Rust indexing panics out of bounds, which
is modelled as an error result with an empty trace), then run the compile and
codegen invocations in order, stopping at the first failure.  The final glob
for the produced executable is elided: its success is folded into the codegen
oracle. -/
def compile_bin (meta : ManifestTargets) (target : Target)
    (exec : Invocation → Bool) : List Invocation × Except String String :=
  let run : BinTarget → List Invocation × Except String String := fun bt =>
    let inv1 := Invocation.compile bt.main
    if exec inv1 then
      let inv2 := Invocation.codegen (bt.main ++ ".ibc") bt.name
      if exec inv2 then ([inv1, inv2], .ok bt.name)
      else ([inv1, inv2], .error "codegen failed")
    else ([inv1], .error "compile failed")
  match target with
  | .bin ix =>
    match meta.bin.get? ix with
    | some bt => run bt
    | none => ([], .error "index out of bounds")
  | .test ix =>
    match meta.test.get? ix with
    | some bt => run bt
    | none => ([], .error "index out of bounds")
  | _ => ([], .error "compile_bin called with non-binary target")

/-! ### The completion step of `JobQueue::exec` (src/lib/build/job.rs:253-305)

Thread scheduling and the compiler are external; what the claims concern is
the state transition the executor performs when it drains one successful
result `(job_index, Ok(binary))` from the `done` queue.  `Work` payloads
(`Source`, `BuildHash`, `Binary`) do not influence the transition and are
dropped from the state. -/

inductive Work where
  | wnone
  | dirty
  | fresh
  deriving DecidableEq, Repr

/-- The job graph as the executor sees it: one `Work` tag per node and the
dependent → dependency edges. -/
structure JobGraph where
  work : List Work
  edges : List (Nat × Nat)
  deriving DecidableEq, Repr

/-- `graph.children(n)`: indices `n` depends on. -/
def JobGraph.children (g : JobGraph) (n : Nat) : List Nat :=
  (g.edges.filter (fun e => decide (e.1 = n))).map (fun e => e.2)

/-- `graph.parents(n)`: indices depending on `n`. -/
def JobGraph.parents (g : JobGraph) (n : Nat) : List Nat :=
  (g.edges.filter (fun e => decide (e.2 = n))).map (fun e => e.1)

/-- Replace node `n`'s work tag. -/
def JobGraph.setWork (g : JobGraph) (n : Nat) (w : Work) : JobGraph :=
  { g with work := g.work.set n w }

/-- `work(n)`, with the out-of-range default irrelevant to the claims. -/
def JobGraph.workAt (g : JobGraph) (n : Nat) : Work :=
  g.work.getD n Work.wnone

/-- The first half of the success case (src/lib/build/job.rs:255-268): store
the produced binary as `Fresh`, or drop a still-`Dirty` job with no library
target to `None`. -/
def JobGraph.afterOwnUpdate (g : JobGraph) (j : Nat) (gotBinary : Bool) :
    JobGraph :=
  if gotBinary then g.setWork j Work.fresh
  else if g.workAt j = Work.dirty then g.setWork j Work.wnone
  else g

/-- The full transition for one successful job result
(src/lib/build/job.rs:255-298): update the job's own work, queue every
`Dirty` parent whose children are now all `Fresh`, collect the children all
of whose parents are now `Fresh` and only then set them to `None`.  Returns
the new graph and the queued parents. -/
def JobGraph.onJobSuccess (g : JobGraph) (j : Nat) (gotBinary : Bool) :
    JobGraph × List Nat :=
  let g1 := g.afterOwnUpdate j gotBinary
  let queued := (g1.parents j).filter (fun p =>
    decide ((g1.children p).all (fun c => g1.workAt c = Work.fresh)) &&
      decide (g1.workAt p = Work.dirty))
  let childDone := (g1.children j).filter (fun c =>
    decide ((g1.parents c).all (fun p => g1.workAt p = Work.fresh)))
  (childDone.foldl (fun acc c => acc.setWork c Work.wnone) g1, queued)

/-! ### The lockfile conversions (src/lib/package/lockfile.rs:40-94)

`Graph<T>` itself lives in util/graph.rs, which is not among the sources; it
is modelled from the spec as a node list with stable indices and
dependent → dependency edge pairs.  `find_by` returns the first node
satisfying a predicate, `find_id` the first index holding a given value, and
`sub_tree` enumerates the nodes reachable from a start node in first-seen
(breadth-first) order — all modelled from the spec's description of
`Graph<T>` and of lockfile generation. -/

/-- A `Graph<Summary>`: nodes with stable indices, edges from dependent to
dependency. -/
structure SGraph where
  nodes : List Summary
  edges : List (Nat × Nat)
  deriving DecidableEq, Repr

/-- `graph.children(ix)` on a summary graph. -/
def SGraph.children (g : SGraph) (n : Nat) : List Nat :=
  (g.edges.filter (fun e => decide (e.1 = n))).map (fun e => e.2)

/-- Modelled from the spec: `sub_tree` worklist traversal.  Fuel bounds the
iteration; each step either discards an already-visited (or out-of-range)
head or marks it visited and enqueues its children.  The visited list is
accumulated in reverse first-seen order. -/
def SGraph.subTreeAux (g : SGraph) : Nat → List Nat → List Nat → List Nat
  | 0, _, vis => vis.reverse
  | _ + 1, [], vis => vis.reverse
  | fuel + 1, n :: rest, vis =>
    if n ∈ vis ∨ g.nodes.length ≤ n then g.subTreeAux fuel rest vis
    else g.subTreeAux fuel (rest ++ g.children n) (n :: vis)

/-- Fuel sufficient for the worklist to drain: the queue receives at most
one entry per edge plus the start node. -/
def SGraph.subTree (g : SGraph) (start : Nat) : List Nat :=
  g.subTreeAux ((g.nodes.length + g.edges.length + 1) * (g.edges.length + 2))
    [start] []

/-- One entry of `LockfileToml.packages`: a summary and its dependency
summaries. -/
structure LockedPkg where
  sum : Summary
  dependencies : List Summary
  deriving DecidableEq, Repr

/-- `IndexSet::from_iter`: keep the first occurrence of each element. -/
def dedupKeepFirst {α : Type} [DecidableEq α] (l : List α) : List α :=
  l.foldl (fun acc x => if x ∈ acc then acc else acc ++ [x]) []

/-- The summaries of `ix`'s children, in edge order
(`self.children(...).map(|x| x.1).cloned()`). -/
def SGraph.childSums (g : SGraph) (ix : Nat) : List Summary :=
  (g.children ix).map (fun j => g.nodes.getD j default)

/-- `impl Into<LockfileToml> for Graph<Summary>`
(src/lib/package/lockfile.rs:40-61): find the root node, walk its sub-tree,
and emit for each visited package a `LockedPkg` whose dependency list is the
children of `find_id(pkg)` — the first index holding that summary.  `None`
models the `unwrap` failing when no root exists. -/
def SGraph.toLockfile (g : SGraph) : Option (List LockedPkg) :=
  (g.nodes.findIdx? (fun s => decide (s.id.resolution = Res.root))).map
    (fun rix =>
      dedupKeepFirst ((g.subTree rix).map (fun ix =>
        let sum := g.nodes.getD ix default
        let fid := (g.nodes.findIdx? (fun s => decide (s = sum))).getD 0
        ⟨sum, g.childSums fid⟩)))

/-- The builder state of `From<LockfileToml> for Graph<Summary>`: the petgraph
node arena and edge list.  The companion `set : IndexMap<Summary, NodeIndex>`
always maps exactly the arena's summaries to their positions, so lookups are
modelled by `findIdx?` on the node list. -/
structure BuildSt where
  nodes : List Summary
  edges : List (Nat × Nat)
  deriving DecidableEq, Repr

/-- Look up a summary's node, adding a fresh node when absent
(the `if set.contains_key ... else add_node` pattern at
src/lib/package/lockfile.rs:71-77 and 80-86). -/
def getOrAdd (st : BuildSt) (s : Summary) : BuildSt × Nat :=
  match st.nodes.findIdx? (fun t => decide (t = s)) with
  | some i => (st, i)
  | none => ({ st with nodes := st.nodes ++ [s] }, st.nodes.length)

/-- The `for dep in pkg.dependencies` loop: resolve each dependency summary
and add an edge from the package's node. -/
def addDeps (nix : Nat) : BuildSt → List Summary → BuildSt
  | st, [] => st
  | st, d :: ds =>
    let r := getOrAdd st d
    addDeps nix { r.1 with edges := r.1.edges ++ [(nix, r.2)] } ds

/-- The `for pkg in f.packages` loop of `From<LockfileToml>`
(src/lib/package/lockfile.rs:64-94). -/
def addPkgs : BuildSt → List LockedPkg → BuildSt
  | st, [] => st
  | st, p :: ps =>
    let r := getOrAdd st p.sum
    addPkgs (addDeps r.2 r.1 p.dependencies) ps

/-- `From<LockfileToml> for Graph<Summary>`: fold the package list into an
empty graph. -/
def fromLockfile (pkgs : List LockedPkg) : SGraph :=
  let st := addPkgs ⟨[], []⟩ pkgs
  ⟨st.nodes, st.edges⟩

/-- An edge rendered as the pair of summaries at its endpoints. -/
def pairUp (nodes : List Summary) (e : Nat × Nat) : Summary × Summary :=
  (nodes.getD e.1 default, nodes.getD e.2 default)

/-- The edge set of a summary graph, as pairs of summaries (the view under
which the round-trip claim compares graphs). -/
def SGraph.edgeSums (g : SGraph) : List (Summary × Summary) :=
  g.edges.map (pairUp g.nodes)

/-! ### Classifier predicates and concrete instances used by the claims -/

/-- Whether a target is the library target. -/
def Target.isLib : Target → Bool
  | .lib => true
  | _ => false

/-- Whether a target is a binary target. -/
def Target.isBin : Target → Bool
  | .bin _ => true
  | _ => false

/-- Whether a target is a `Test` or `Doc` target. -/
def Target.isTD : Target → Bool
  | .test _ => true
  | .doc => true
  | _ => false

/-- Stated from the claim, to be compared with the source's scan: index
entry `e` refines `dep` when it declares a dependency with `dep`'s name and
registry whose constraint relates to `dep`'s as `Equal` or `Superset`. -/
def refinesB {Req : Type} (relation : Req → Req → Relation) (dep : Dep Req)
    (e : IndexEntry Req) : Bool :=
  e.dependencies.any (fun nd =>
    decide (dep.name = nd.name ∧ dep.index = nd.index) &&
      (decide (relation dep.req nd.req = Relation.equal) ||
        decide (relation dep.req nd.req = Relation.superset)))

/-- `refinesB` at position `k` of the index. -/
def refinesAt {Req : Type} (relation : Req → Req → Relation)
    (entries : Entries Req) (dep : Dep Req) (k : Nat) : Bool :=
  refinesB relation dep (entries.getD k (default, ⟨[]⟩)).2

/-- Spec scenario 7, constraint side: constraints are caret requirements
named by their major version; equal requirements are `Equal`, different ones
`Disjoint` (`^1` vs `^2`). -/
def relEx : Nat → Nat → Relation :=
  fun a b => if a = b then .equal else .disjoint

/-- A concrete stand-in for `Constraint::complement` in the scenario. -/
def compEx : Nat → Nat := fun a => a + 100

/-- Version `1.0.p`. -/
def verP (p : Nat) : Version := ⟨1, 0, p, []⟩

/-- An index record declaring one dependency on package `Q` (name 7,
registry 0) with requirement `r`. -/
def entryQ (r : Nat) : IndexEntry Nat := ⟨[⟨7, 0, r⟩]⟩

/-- Spec scenario 7: versions `1.0.0..1.0.3` of `P` depend on `Q = ^1`,
version `1.0.4` depends on `Q = ^2`. -/
def entriesEx : Entries Nat :=
  [(verP 0, entryQ 1), (verP 1, entryQ 1), (verP 2, entryQ 1),
    (verP 3, entryQ 1), (verP 4, entryQ 2)]

/-- The diamond job graph `R → {B, C} → D` with `D` already `Fresh` and the
rest `Dirty` (spec scenario 4). -/
def diamondEx : JobGraph :=
  ⟨[Work.dirty, Work.dirty, Work.dirty, Work.fresh],
    [(0, 1), (0, 2), (1, 3), (2, 3)]⟩

/-- A root summary for the lockfile examples. -/
def sumRootEx : Summary := ⟨⟨0, .root⟩, verP 0⟩

/-- An index summary for the lockfile examples. -/
def sumAEx : Summary := ⟨⟨1, .index 0⟩, verP 1⟩

/-- A second index summary for the lockfile examples. -/
def sumBEx : Summary := ⟨⟨2, .index 0⟩, verP 2⟩

/-- A fully reachable three-node graph with edges root→A, root→B, A→B. -/
def gRoundEx : SGraph := ⟨[sumRootEx, sumAEx, sumBEx], [(0, 1), (0, 2), (1, 2)]⟩

/-- A graph whose second node is unreachable from the root. -/
def gUnreachEx : SGraph := ⟨[sumRootEx, sumAEx], []⟩

/-! ## Theorems -/

/-! ### C2 — checksum handling in `DirectRes::retrieve` -/

/-- C2: the claim says a checksum mismatch fails retrieval with the
checksum error and a match does not.  The source compares the wrong way
round (`if &cksum.hash == &hash { return Err(ErrorKind::Checksum)? }`,
src/lib/package/resolution.rs:98-102 and 121-125): retrieval fails with the
checksum error exactly when the computed hash EQUALS the declared one, and
succeeds when they differ.  Evaluated here at a concrete failing input:
content hashing to `dead` against a declared `sha256:dead` errors, and the
same content against a declared `sha256:beef` is accepted. -/
theorem c2_checksum_comparison_inverted :
    DirectRes.retrieveTar (fun _ => [222, 173]) "https" (some [1, 2, 3])
        (some ⟨"sha256", "dead"⟩) true = Except.error ErrorKind.checksum ∧
    DirectRes.retrieveTar (fun _ => [222, 173]) "https" (some [1, 2, 3])
        (some ⟨"sha256", "beef"⟩) true = Except.ok () := by
  constructor <;> rfl

/-! ### C3 — `DirectRes::from_str` on `tar+` URLs -/

/-- `from_str` on any `tar+` input reduces to the tar arm applied to the
parse of the remainder. -/
theorem fromStr_tarPlus_eq (l : List Char) :
    DirectRes.fromStr ⟨'t' :: 'a' :: 'r' :: '+' :: l⟩ =
      (match Url.parse ⟨l⟩ with
       | none => Except.error ErrorKind.invalidSourceUrl
       | some u =>
         if u.scheme ≠ "http" ∨ u.scheme ≠ "https" ∨ u.scheme ≠ "file" then
           Except.error ErrorKind.invalidSourceUrl
         else
           Except.ok (DirectRes.tar { u with fragment := none }
             (u.fragment.bind (fun f => Checksum.fromStr f)))) := rfl

/-- C3: the claim says `tar+<url>` parses successfully for schemes `http`,
`https` and `file`.  The scheme test at src/lib/package/resolution.rs:178
chains `!=` with `||` (`url.scheme() != "http" || url.scheme() != "https" ||
url.scheme() != "file"`), which no scheme can falsify, so every `tar+` input
is rejected with `InvalidSourceUrl` — shown for all suffixes and evaluated at
a concrete well-formed input. -/
theorem c3_tar_always_rejected :
    (∀ s : String, DirectRes.fromStr ("tar+" ++ s) =
      Except.error ErrorKind.invalidSourceUrl) ∧
    DirectRes.fromStr "tar+https://elba.io/pkg.tar.gz" =
      Except.error ErrorKind.invalidSourceUrl := by
  constructor
  · intro s
    obtain ⟨l⟩ := s
    rw [show ("tar+" ++ String.mk l) = ⟨'t' :: 'a' :: 'r' :: '+' :: l⟩ from rfl]
    rw [fromStr_tarPlus_eq l]
    cases hu : Url.parse ⟨l⟩ with
    | none => rfl
    | some u =>
      have hc : u.scheme ≠ "http" ∨ u.scheme ≠ "https" ∨ u.scheme ≠ "file" := by
        by_cases h : u.scheme = "http"
        · exact Or.inr (Or.inl (by rw [h]; decide))
        · exact Or.inl h
      simp only [if_pos hc]
  · rfl

/-! ### C9 — `Retriever::best` for `Root` packages -/

/-- C9: once the lockfile lookup misses, `best` on a package whose
resolution is `Root` returns the stored root version for every constraint
and never reaches the index partition or `PackageNotFound`
(src/lib/retrieve/mod.rs:136-138). -/
theorem c9_best_root (lockfile : List Summary) (checkout : Version → Option Version)
    (directVer : Except ErrorKind Version) (rootVer : Version)
    (entries : List Version) (pkg : PackageId) (con : Version → Bool)
    (minimize : Bool)
    (hmiss : List.find? (fun s => decide (s.id = pkg)) lockfile = none)
    (hroot : pkg.resolution = Res.root) :
    Retriever.best lockfile checkout directVer rootVer entries pkg con minimize =
      Except.ok rootVer := by
  unfold Retriever.best
  rw [hmiss, hroot]
  rfl

/-- Witness for C9 at a concrete root package and a constraint the root
version does not satisfy. -/
theorem c9_best_root_witness :
    Retriever.best [] (fun _ => none) (Except.error ErrorKind.packageNotFound)
        (verP 9) [verP 0] ⟨5, Res.root⟩ (fun _ => false) false =
      Except.ok (verP 9) :=
  c9_best_root [] (fun _ => none) (Except.error ErrorKind.packageNotFound)
    (verP 9) [verP 0] ⟨5, Res.root⟩ (fun _ => false) false rfl rfl

/-! ### C10 — `compile_bin` target dispatch -/

/-- C10: `compile_bin` rejects `Lib` and `Doc` targets with the
non-binary-target error before any compiler invocation (empty trace), and
for `Bin(i)` / `Test(i)` it reads the `i`-th bin resp. test entry of the
manifest, whose main module is the first compile invocation
(src/lib/build/mod.rs:158-162). -/
theorem c10_compile_bin_dispatch (meta : ManifestTargets)
    (exec : Invocation → Bool) :
    compile_bin meta Target.lib exec =
        ([], Except.error "compile_bin called with non-binary target") ∧
    compile_bin meta Target.doc exec =
        ([], Except.error "compile_bin called with non-binary target") ∧
    (∀ ix bt, meta.bin.get? ix = some bt →
      (compile_bin meta (Target.bin ix) exec).1.head? =
        some (Invocation.compile bt.main)) ∧
    (∀ ix bt, meta.test.get? ix = some bt →
      (compile_bin meta (Target.test ix) exec).1.head? =
        some (Invocation.compile bt.main)) := by
  refine ⟨rfl, rfl, ?_, ?_⟩ <;>
    · intro ix bt h
      simp only [compile_bin, h]
      by_cases h1 : exec (Invocation.compile bt.main) <;>
        simp [h1] <;> split <;> simp

/-- Witness for C10 at a one-entry manifest. -/
theorem c10_compile_bin_dispatch_witness :
    (ManifestTargets.mk [⟨"app", "Main"⟩] []).bin.get? 0 = some ⟨"app", "Main"⟩ ∧
    (compile_bin ⟨[⟨"app", "Main"⟩], []⟩ (Target.bin 0) (fun _ => true)).1.head? =
      some (Invocation.compile "Main") :=
  ⟨rfl, (c10_compile_bin_dispatch ⟨[⟨"app", "Main"⟩], []⟩ (fun _ => true)).2.2.1
    0 ⟨"app", "Main"⟩ rfl⟩

/-! ### C7 — eager `None` transitions in `JobQueue::exec` -/

/-- Updating a work tag: the written slot reads back the new tag (in range),
every other slot is unchanged, and slots beyond the list still read the
default. -/
theorem workAt_setWork (g : JobGraph) (n : Nat) (w : Work) (c : Nat) :
    (g.setWork n w).workAt c =
      if c = n ∧ c < g.work.length then w else g.workAt c := by
  simp only [JobGraph.setWork, JobGraph.workAt, List.getD_eq_getElem?_getD,
    List.getElem?_set]
  by_cases h1 : n = c
  · subst h1
    by_cases h2 : n < g.work.length
    · simp [h2]
    · simp [h2, List.getElem?_eq_none (Nat.le_of_not_lt h2)]
  · have h1' : ¬(c = n) := fun hh => h1 hh.symm
    simp [h1, h1']

/-- Setting a node to `None` always makes it read `None` (out of range it
already reads the default `None`). -/
theorem workAt_setWork_wnone_self (g : JobGraph) (c : Nat) :
    (g.setWork c Work.wnone).workAt c = Work.wnone := by
  rw [workAt_setWork]
  by_cases h : c < g.work.length
  · simp [h]
  · simp only [h, and_false, if_false, JobGraph.workAt]
    rw [List.getD_eq_getElem?_getD, List.getElem?_eq_none (Nat.le_of_not_lt h)]
    rfl

/-- Folding `set to None` over a list turns every listed node to `None` and
never changes a node that already reads `None`. -/
theorem foldl_setWNone (cs : List Nat) (g : JobGraph) (c : Nat)
    (h : c ∈ cs ∨ g.workAt c = Work.wnone) :
    (cs.foldl (fun acc x => acc.setWork x Work.wnone) g).workAt c =
      Work.wnone := by
  induction cs generalizing g with
  | nil => simpa using h
  | cons x xs ih =>
    simp only [List.foldl_cons]
    refine ih _ ?_
    rcases h with h | h
    · rcases List.mem_cons.mp h with h | h
      · subst h
        exact Or.inr (workAt_setWork_wnone_self g c)
      · exact Or.inl h
    · refine Or.inr ?_
      rw [workAt_setWork]
      by_cases hcx : c = x ∧ c < g.work.length
      · rw [if_pos hcx]
      · rw [if_neg hcx]; exact h

/-- `afterOwnUpdate` does not touch the edge list. -/
theorem afterOwnUpdate_edges (g : JobGraph) (j : Nat) (b : Bool) :
    (g.afterOwnUpdate j b).edges = g.edges := by
  unfold JobGraph.afterOwnUpdate JobGraph.setWork
  split <;> [rfl; split <;> rfl]

/-- C7: when a job `j` completes successfully, every child of `j` all of
whose parents are `Fresh` after `j`'s own state update has its work set to
`None` by the completion step (src/lib/build/job.rs:284-297). -/
theorem c7_children_dropped (g : JobGraph) (j : Nat) (b : Bool) (c : Nat)
    (hc : c ∈ g.children j)
    (hp : ∀ p ∈ g.parents c, (g.afterOwnUpdate j b).workAt p = Work.fresh) :
    ((g.onJobSuccess j b).1).workAt c = Work.wnone := by
  unfold JobGraph.onJobSuccess
  refine foldl_setWNone _ _ _ (Or.inl ?_)
  rw [List.mem_filter]
  constructor
  · show c ∈ (g.afterOwnUpdate j b).children j
    unfold JobGraph.children
    rw [afterOwnUpdate_edges]
    exact hc
  · rw [decide_eq_true_iff, List.all_eq_true]
    intro p hpmem
    rw [decide_eq_true_iff]
    refine hp p ?_
    show p ∈ (g.parents c)
    unfold JobGraph.parents at hpmem ⊢
    rw [afterOwnUpdate_edges] at hpmem
    exact hpmem

/-- Witness for C7: the diamond graph `R → {B, C} → D` (spec scenario 4).
After `B` completes, `D` keeps its binary because `C` is still `Dirty`; when
`C` then completes, both of `D`'s parents are `Fresh` and `D`'s work
transitions to `None`. -/
theorem c7_children_dropped_witness :
    (3 ∈ ((diamondEx.onJobSuccess 1 true).1).children 2 ∧
      ((diamondEx.onJobSuccess 1 true).1).workAt 3 = Work.fresh) ∧
    (((diamondEx.onJobSuccess 1 true).1.onJobSuccess 2 true).1).workAt 3 =
      Work.wnone :=
  ⟨by decide,
    c7_children_dropped (diamondEx.onJobSuccess 1 true).1 2 true 3 (by decide)
      (by decide)⟩

/-! ### Structure of `Targets::new` (claims C4 and C8) -/

/-- `Lib` is minimal in the target ordering. -/
theorem tle_lib_min (b : Target) : Target.tle Target.lib b := by
  cases b <;> simp [Target.tle, Target.key]

/-- Every binary target precedes every `Test`/`Doc` target. -/
theorem tle_bin_td {b t : Target} (hb : b.isBin = true) (ht : t.isTD = true) :
    Target.tle b t := by
  cases b <;> cases t <;> simp_all [Target.isBin, Target.isTD] <;>
    simp [Target.tle, Target.key]

/-- A target with the larger variant tag never precedes one with a smaller
tag. -/
theorem not_tle_of_key_lt {a b : Target} (h : b.key.1 < a.key.1) :
    ¬ Target.tle a b := by
  intro hab
  rcases hab with h1 | ⟨h1, _⟩
  · exact Nat.lt_irrefl _ (h1.trans h)
  · exact Nat.lt_irrefl _ (h1 ▸ h)

/-- A `Test`/`Doc` target is not a binary target. -/
theorem isBin_false_of_isTD {u : Target} (h : u.isTD = true) :
    u.isBin = false := by
  cases u
  · exact (Bool.false_ne_true h).elim
  · exact (Bool.false_ne_true h).elim
  · rfl
  · rfl

/-- Once `seen_lib` is set, a list without binary targets leaves the
accumulator unchanged. -/
theorem foldl_newStep_seen (l : List Target) (res : List Target)
    (h : ∀ t ∈ l, t.isBin = false) :
    l.foldl Targets.newStep (res, true) = (res, true) := by
  induction l generalizing res with
  | nil => rfl
  | cons t ts ih =>
    have ht := h t (List.mem_cons_self t ts)
    have hts : ∀ u ∈ ts, u.isBin = false := fun u hu =>
      h u (List.mem_cons_of_mem t hu)
    cases t with
    | bin i => simp [Target.isBin] at ht
    | lib => simpa [Targets.newStep] using ih res hts
    | test i => simpa [Targets.newStep] using ih res hts
    | doc => simpa [Targets.newStep] using ih res hts

/-- The `Lib` phase: a (possibly empty) run of `Lib`s pushes one `Lib` and
sets `seen_lib`. -/
theorem foldl_newStep_libs (l : List Target) (res : List Target)
    (h : ∀ t ∈ l, t = Target.lib) :
    l.foldl Targets.newStep (res, false) =
      if l.isEmpty then (res, false) else (res ++ [Target.lib], true) := by
  cases l with
  | nil => rfl
  | cons t ts =>
    have ht := h t (List.mem_cons_self t ts)
    subst ht
    have hts : ∀ u ∈ ts, u.isBin = false := by
      intro u hu
      rw [h u (List.mem_cons_of_mem _ hu)]
      rfl
    simp only [List.foldl_cons, Targets.newStep, List.isEmpty_cons,
      if_neg Bool.false_ne_true, Bool.false_eq_true, if_false]
    exact foldl_newStep_seen ts _ hts

/-- The `Bin` phase: binary targets are pushed unconditionally, in order. -/
theorem foldl_newStep_bins (l : List Target) (res : List Target) (s : Bool)
    (h : ∀ t ∈ l, t.isBin = true) :
    l.foldl Targets.newStep (res, s) = (res ++ l, s) := by
  induction l generalizing res with
  | nil => simp
  | cons t ts ih =>
    have ht := h t (List.mem_cons_self t ts)
    have hts : ∀ u ∈ ts, u.isBin = true := fun u hu =>
      h u (List.mem_cons_of_mem t hu)
    cases t with
    | bin i =>
      simp only [List.foldl_cons, Targets.newStep]
      rw [ih (res ++ [Target.bin i]) hts, List.append_assoc]
      rfl
    | lib => simp [Target.isBin] at ht
    | test i => simp [Target.isBin] at ht
    | doc => simp [Target.isBin] at ht

/-- The `Test`/`Doc` phase starting with `seen_lib` unset: the first element
inserts `Lib` at the front and is pushed; everything after it is dropped. -/
theorem foldl_newStep_tds (t : Target) (ts : List Target) (res : List Target)
    (h : ∀ u ∈ t :: ts, u.isTD = true) :
    (t :: ts).foldl Targets.newStep (res, false) =
      (Target.lib :: (res ++ [t]), true) := by
  have ht := h t (List.mem_cons_self t ts)
  have hts : ∀ u ∈ ts, u.isBin = false := fun u hu =>
    isBin_false_of_isTD (h u (List.mem_cons_of_mem _ hu))
  cases t with
  | lib => exact (Bool.false_ne_true ht).elim
  | bin i => exact (Bool.false_ne_true ht).elim
  | test i =>
    simp only [List.foldl_cons, Targets.newStep, Bool.false_eq_true, if_false]
    exact foldl_newStep_seen ts _ hts
  | doc =>
    simp only [List.foldl_cons, Targets.newStep, Bool.false_eq_true, if_false]
    exact foldl_newStep_seen ts _ hts

/-- Only `Lib` satisfies `isLib`. -/
theorem eq_lib_of_isLib {u : Target} (h : u.isLib = true) : u = Target.lib := by
  cases u
  · rfl
  all_goals simp [Target.isLib] at h

/-- Below a target with tag above 0, no `Lib` occurs. -/
theorem filter_isLib_nil {a : Target} {t : List Target} (ha : 0 < a.key.1)
    (hrel : ∀ b ∈ t, Target.tle a b) : t.filter Target.isLib = [] := by
  rw [List.filter_eq_nil_iff]
  intro u hu hlib
  rw [eq_lib_of_isLib hlib] at hu
  exact not_tle_of_key_lt (show Target.lib.key.1 < a.key.1 from ha) (hrel _ hu)

/-- Below a target with tag above 1, no `Bin` occurs. -/
theorem filter_isBin_nil {a : Target} {t : List Target} (ha : 1 < a.key.1)
    (hrel : ∀ b ∈ t, Target.tle a b) : t.filter Target.isBin = [] := by
  rw [List.filter_eq_nil_iff]
  intro u hu hbin
  cases u with
  | bin j => exact not_tle_of_key_lt (by simpa [Target.key] using ha) (hrel _ hu)
  | lib => simp [Target.isBin] at hbin
  | test j => simp [Target.isBin] at hbin
  | doc => simp [Target.isBin] at hbin

/-- A sorted target list decomposes into its `Lib` run, its `Bin` run, and
its `Test`/`Doc` tail. -/
theorem sorted_decomp (xs : List Target) (h : List.Sorted Target.tle xs) :
    xs = xs.filter Target.isLib ++ xs.filter Target.isBin ++
      xs.filter Target.isTD := by
  induction xs with
  | nil => rfl
  | cons a t ih =>
    have hrel := List.rel_of_sorted_cons h
    have ht := ih h.of_cons
    cases a with
    | lib =>
      simp only [List.filter_cons, Target.isLib, Target.isBin, Target.isTD,
        if_true, if_false, Bool.false_eq_true]
      exact congrArg _ ht
    | bin i =>
      have hfl : t.filter Target.isLib = [] :=
        filter_isLib_nil (by simp [Target.key]) hrel
      rw [hfl] at ht
      simp only [List.filter_cons, Target.isLib, Target.isBin, Target.isTD,
        if_true, Bool.false_eq_true, if_false, List.nil_append, hfl] at ht ⊢
      exact congrArg _ ht
    | test i =>
      have hfl : t.filter Target.isLib = [] :=
        filter_isLib_nil (by simp [Target.key]) hrel
      have hfb : t.filter Target.isBin = [] :=
        filter_isBin_nil (by simp [Target.key]) hrel
      rw [hfl, hfb] at ht
      simp only [List.filter_cons, Target.isLib, Target.isBin, Target.isTD,
        Bool.false_eq_true, if_false, if_true, hfl, hfb, List.nil_append]
        at ht ⊢
      exact congrArg _ ht
    | doc =>
      have hfl : t.filter Target.isLib = [] :=
        filter_isLib_nil (by simp [Target.key]) hrel
      have hfb : t.filter Target.isBin = [] :=
        filter_isBin_nil (by simp [Target.key]) hrel
      rw [hfl, hfb] at ht
      simp only [List.filter_cons, Target.isLib, Target.isBin, Target.isTD,
        Bool.false_eq_true, if_false, if_true, hfl, hfb, List.nil_append]
        at ht ⊢
      exact congrArg _ ht

/-- Every element of the `isLib` filter is `Lib`. -/
theorem all_lib_of_filter (xs : List Target) :
    ∀ t ∈ xs.filter Target.isLib, t = Target.lib := fun t ht =>
  eq_lib_of_isLib (List.mem_filter.mp ht).2

/-- Closed form of `Targets::new`: one `Lib` if the input had any, then the
sorted binaries, then — only when no `Lib` was present — the least
`Test`/`Doc` target preceded by the inserted `Lib`. -/
theorem Targets.new_eq (xs : List Target) :
    Targets.new xs =
      (if (sortTargets xs).filter Target.isLib = [] then
        (match (sortTargets xs).filter Target.isTD with
         | [] => (sortTargets xs).filter Target.isBin
         | t :: _ =>
           Target.lib :: ((sortTargets xs).filter Target.isBin ++ [t]))
      else Target.lib :: (sortTargets xs).filter Target.isBin) := by
  have hsorted : List.Sorted Target.tle (sortTargets xs) :=
    List.sorted_insertionSort Target.tle xs
  have hdec := sorted_decomp (sortTargets xs) hsorted
  unfold Targets.new
  rw [show (sortTargets xs).foldl Targets.newStep ([], false) =
      ((sortTargets xs).filter Target.isLib ++ (sortTargets xs).filter
        Target.isBin ++ (sortTargets xs).filter Target.isTD).foldl
        Targets.newStep ([], false) by rw [← hdec]]
  rw [List.foldl_append, List.foldl_append]
  rw [foldl_newStep_libs _ _ (all_lib_of_filter _)]
  by_cases hl : (sortTargets xs).filter Target.isLib = []
  · rw [hl]
    simp only [List.isEmpty_nil, if_true]
    rw [foldl_newStep_bins _ _ _ (fun t ht => (List.mem_filter.mp ht).2)]
    cases htd : (sortTargets xs).filter Target.isTD with
    | nil => simp
    | cons t ts =>
      rw [foldl_newStep_tds t ts _ (fun u hu =>
        (List.mem_filter.mp (htd ▸ hu)).2)]
      simp
  · rw [if_neg hl, if_neg (by simpa [List.isEmpty_iff] using hl)]
    rw [foldl_newStep_bins _ _ _ (fun t ht => (List.mem_filter.mp ht).2)]
    rw [foldl_newStep_seen _ _ (fun t ht =>
      isBin_false_of_isTD (List.mem_filter.mp ht).2)]
    simp

/-- The binary filter of `new`'s output is the sorted binary run. -/
theorem new_filter_isBin (xs : List Target) :
    (Targets.new xs).filter Target.isBin =
      (sortTargets xs).filter Target.isBin := by
  have hself : ((sortTargets xs).filter Target.isBin).filter Target.isBin =
      (sortTargets xs).filter Target.isBin :=
    List.filter_eq_self.mpr (fun t ht => (List.mem_filter.mp ht).2)
  rw [Targets.new_eq]
  by_cases hl : (sortTargets xs).filter Target.isLib = []
  · rw [if_pos hl]
    cases htd : (sortTargets xs).filter Target.isTD with
    | nil => exact hself
    | cons t ts =>
      have htd' : Target.isTD t = true :=
        (List.mem_filter.mp (htd ▸ List.mem_cons_self t ts)).2
      have hbt : Target.isBin t = false := isBin_false_of_isTD htd'
      rw [List.filter_cons, show Target.isBin Target.lib = false from rfl]
      simp only [Bool.false_eq_true, if_false]
      rw [List.filter_append, hself, List.filter_cons, hbt]
      simp
  · rw [if_neg hl]
    simp only [List.filter_cons]
    rw [show Target.isBin Target.lib = false from rfl]
    simp [hself]

/-! ### C8 — shape of `Targets::new` output -/

/-- C8 counterexample: the output of `Targets::new` is not de-duplicated —
a repeated `Bin` target survives in duplicate (src/lib/build/mod.rs:76-78
pushes binaries unconditionally). -/
theorem c8_counterexample_dup_bin :
    Targets.new [Target.bin 0, Target.bin 0] =
        [Target.bin 0, Target.bin 0] ∧
      ¬ (Targets.new [Target.bin 0, Target.bin 0]).Nodup := by
  constructor
  · rfl
  · decide

/-- C8 (amended): for every input list, `Targets::new` yields a list that is
sorted in the target order, contains `Lib` at most once, starts with `Lib`
whenever the input contains a `Test` or `Doc` target, and whose binary
targets are exactly the input's binaries in sorted order (kept with
multiplicity — the source does not de-duplicate `Bin` targets). -/
theorem c8_new_shape (xs : List Target) :
    List.Sorted Target.tle (Targets.new xs) ∧
    (Targets.new xs).count Target.lib ≤ 1 ∧
    ((∃ t ∈ xs, t.isTD = true) →
      (Targets.new xs).head? = some Target.lib) ∧
    ((Targets.new xs).filter Target.isBin).Perm
        (xs.filter Target.isBin) ∧
    List.Sorted Target.tle ((Targets.new xs).filter Target.isBin) := by
  have hsorted : List.Sorted Target.tle (sortTargets xs) :=
    List.sorted_insertionSort Target.tle xs
  have hfb : List.Sorted Target.tle ((sortTargets xs).filter Target.isBin) :=
    List.Pairwise.filter _ hsorted
  have hnotlib : Target.lib ∉ (sortTargets xs).filter Target.isBin := by
    intro hmem
    exact absurd (List.mem_filter.mp hmem).2 (by decide)
  refine ⟨?_, ?_, ?_, ?_, ?_⟩
  · rw [Targets.new_eq]
    by_cases hl : (sortTargets xs).filter Target.isLib = []
    · rw [if_pos hl]
      cases htd : (sortTargets xs).filter Target.isTD with
      | nil => exact hfb
      | cons t ts =>
        have htdT : Target.isTD t = true :=
          (List.mem_filter.mp (htd ▸ List.mem_cons_self t ts)).2
        refine List.pairwise_cons.mpr ⟨fun b _ => tle_lib_min b, ?_⟩
        rw [List.pairwise_append]
        refine ⟨hfb, List.pairwise_singleton _ _, ?_⟩
        intro b hb t' ht'
        rw [List.mem_singleton] at ht'
        subst ht'
        exact tle_bin_td (List.mem_filter.mp hb).2 htdT
    · rw [if_neg hl]
      exact List.pairwise_cons.mpr ⟨fun b _ => tle_lib_min b, hfb⟩
  · rw [Targets.new_eq]
    have hcount0 : ((sortTargets xs).filter Target.isBin).count Target.lib = 0 :=
      List.count_eq_zero.mpr hnotlib
    by_cases hl : (sortTargets xs).filter Target.isLib = []
    · rw [if_pos hl]
      cases htd : (sortTargets xs).filter Target.isTD with
      | nil => simp [hcount0]
      | cons t ts =>
        have htdT : Target.isTD t = true :=
          (List.mem_filter.mp (htd ▸ List.mem_cons_self t ts)).2
        have hlibne : ¬(Target.lib = t) := by
          intro hh
          rw [← hh] at htdT
          exact absurd htdT (by decide)
        simp [List.count_cons, List.count_append, hcount0, hlibne]
    · rw [if_neg hl]
      simp [List.count_cons, hcount0]
  · intro ⟨t, htmem, htd⟩
    have htmem' : t ∈ sortTargets xs :=
      ((List.perm_insertionSort Target.tle xs).mem_iff).mpr htmem
    have : t ∈ (sortTargets xs).filter Target.isTD :=
      List.mem_filter.mpr ⟨htmem', htd⟩
    have hne : (sortTargets xs).filter Target.isTD ≠ [] :=
      List.ne_nil_of_mem this
    rw [Targets.new_eq]
    by_cases hl : (sortTargets xs).filter Target.isLib = []
    · rw [if_pos hl]
      cases htdl : (sortTargets xs).filter Target.isTD with
      | nil => exact absurd htdl hne
      | cons u us => rfl
    · rw [if_neg hl]
      rfl
  · rw [new_filter_isBin]
    exact List.Perm.filter _ (List.perm_insertionSort Target.tle xs)
  · rw [new_filter_isBin]
    exact hfb

/-- Witness for C8: the `Test`-bearing input `[Test 0]` produces output
headed by the inserted `Lib`. -/
theorem c8_new_shape_witness :
    (∃ t ∈ [Target.test 0], t.isTD = true) ∧
      (Targets.new [Target.test 0]).head? = some Target.lib :=
  ⟨⟨Target.test 0, by decide⟩,
    (c8_new_shape [Target.test 0]).2.2.1 ⟨Target.test 0, by decide⟩⟩

/-! ### C4 — idempotence of `Targets::new` -/

/-- C4 counterexample: normalization is not idempotent — `[Test 0]`
normalizes to `[Lib, Test 0]`, but normalizing that drops the `Test` target
(the `seen_lib` guard at src/lib/build/mod.rs:79-85 skips the push), giving
`[Lib]`. -/
theorem c4_counterexample_not_idempotent :
    Targets.new [Target.test 0] = [Target.lib, Target.test 0] ∧
      Targets.new (Targets.new [Target.test 0]) = [Target.lib] ∧
      Targets.new (Targets.new [Target.test 0]) ≠
        Targets.new [Target.test 0] := by
  refine ⟨rfl, rfl, ?_⟩
  decide

/-- C4 (amended): `Targets::new` is idempotent on inputs containing no
`Test` or `Doc` target; on such inputs the output is the optional `Lib`
followed by the sorted binaries, which renormalizes to itself. -/
theorem c4_new_idempotent_no_td (xs : List Target)
    (h : ∀ t ∈ xs, t.isTD = false) :
    Targets.new (Targets.new xs) = Targets.new xs := by
  have hsorted : List.Sorted Target.tle (sortTargets xs) :=
    List.sorted_insertionSort Target.tle xs
  have hfb : List.Sorted Target.tle ((sortTargets xs).filter Target.isBin) :=
    List.Pairwise.filter _ hsorted
  have htd : (sortTargets xs).filter Target.isTD = [] := by
    rw [List.filter_eq_nil_iff]
    intro u hu
    rw [h u (((List.perm_insertionSort Target.tle xs).mem_iff).mp hu)]
    simp
  have hfbself : ((sortTargets xs).filter Target.isBin).filter Target.isBin =
      (sortTargets xs).filter Target.isBin :=
    List.filter_eq_self.mpr (fun t ht => (List.mem_filter.mp ht).2)
  have hfbLib : ((sortTargets xs).filter Target.isBin).filter Target.isLib
      = [] := by
    rw [List.filter_eq_nil_iff]
    intro u hu hul
    rw [eq_lib_of_isLib hul] at hu
    exact absurd (List.mem_filter.mp hu).2 (by decide)
  have hfbTD : ((sortTargets xs).filter Target.isBin).filter Target.isTD
      = [] := by
    rw [List.filter_eq_nil_iff]
    intro u hu hutd
    have hb := (List.mem_filter.mp hu).2
    cases u <;> simp_all [Target.isBin, Target.isTD]
  by_cases hl : (sortTargets xs).filter Target.isLib = []
  · have hx : Targets.new xs = (sortTargets xs).filter Target.isBin := by
      rw [Targets.new_eq, if_pos hl, htd]
    rw [hx]
    rw [Targets.new_eq]
    rw [show sortTargets ((sortTargets xs).filter Target.isBin) =
        (sortTargets xs).filter Target.isBin from
      List.Sorted.insertionSort_eq hfb]
    rw [if_pos hfbLib, hfbTD]
    exact hfbself
  · have hx : Targets.new xs =
        Target.lib :: (sortTargets xs).filter Target.isBin := by
      rw [Targets.new_eq, if_neg hl]
    rw [hx]
    have hsl : List.Sorted Target.tle
        (Target.lib :: (sortTargets xs).filter Target.isBin) :=
      List.pairwise_cons.mpr ⟨fun b _ => tle_lib_min b, hfb⟩
    have hflcons : (Target.lib ::
        (sortTargets xs).filter Target.isBin).filter Target.isLib =
          [Target.lib] := by
      rw [List.filter_cons, show Target.isLib Target.lib = true from rfl]
      simp [hfbLib]
    have hfbcons : (Target.lib ::
        (sortTargets xs).filter Target.isBin).filter Target.isBin =
          (sortTargets xs).filter Target.isBin := by
      rw [List.filter_cons, show Target.isBin Target.lib = false from rfl]
      simp [hfbself]
    rw [Targets.new_eq]
    rw [show sortTargets (Target.lib :: (sortTargets xs).filter Target.isBin)
        = Target.lib :: (sortTargets xs).filter Target.isBin from
      List.Sorted.insertionSort_eq hsl]
    rw [hflcons, hfbcons, if_neg (by simp)]

/-- Witness for C4 at the `Test`/`Doc`-free input `[Bin 1, Lib]`. -/
theorem c4_new_idempotent_no_td_witness :
    (∀ t ∈ [Target.bin 1, Target.lib], t.isTD = false) ∧
      Targets.new (Targets.new [Target.bin 1, Target.lib]) =
        Targets.new [Target.bin 1, Target.lib] :=
  ⟨by decide, c4_new_idempotent_no_td [Target.bin 1, Target.lib] (by decide)⟩

/-! ### C6 — `Retriever::best` on index entries -/

/-- Lexicographic prerelease comparison is reflexive. -/
theorem preListLeB_refl (l : List Nat) : preListLeB l l = true := by
  induction l with
  | nil => rfl
  | cons x xs ih => simp [preListLeB, ih]

/-- The modelled semver order is reflexive. -/
theorem Version.leB_refl (a : Version) : Version.leB a a = true := by
  unfold Version.leB
  simp only [ne_eq, not_true_eq_false, if_false, ite_self]
  cases h : a.pre with
  | nil => simp
  | cons x xs => simp [preListLeB_refl]

/-- In a sorted nonempty list, the last element is an upper bound. -/
theorem sorted_getLastD_max {α : Type} {R : α → α → Prop}
    (hrefl : ∀ a, R a a) :
    ∀ (vs : List α) (v : α), List.Pairwise R (v :: vs) →
      vs.getLastD v ∈ v :: vs ∧ ∀ x ∈ v :: vs, R x (vs.getLastD v) := by
  intro vs
  induction vs with
  | nil =>
    intro v _
    exact ⟨List.mem_singleton_self v, fun x hx => by
      rw [List.mem_singleton] at hx
      subst hx
      exact hrefl x⟩
  | cons w ws ih =>
    intro v hp
    have h1 := List.rel_of_sorted_cons hp
    have h2 : List.Pairwise R (w :: ws) := hp.of_cons
    obtain ⟨ihmem, ihbound⟩ := ih w h2
    rw [List.getLastD_cons]
    refine ⟨List.mem_cons_of_mem _ ihmem, ?_⟩
    intro x hx
    rcases List.mem_cons.mp hx with hx | hx
    · subst hx
      exact h1 _ ihmem
    · exact ihbound x hx

/-- In a sorted nonempty list, the head is a lower bound. -/
theorem sorted_head_min {α : Type} {R : α → α → Prop}
    (hrefl : ∀ a, R a a) (v : α) (vs : List α)
    (hp : List.Pairwise R (v :: vs)) : ∀ x ∈ v :: vs, R v x := by
  intro x hx
  rcases List.mem_cons.mp hx with hx | hx
  · subst hx
    exact hrefl x
  · exact List.rel_of_sorted_cons hp _ hx

/-- C6: for an index-resolved package with no lockfile entry, `best`
filters the index versions through the constraint, partitions them into
prerelease and stable pools, prefers the stable pool, and returns the pool's
last (greatest, index order being ascending) element by default or its first
(least) under `minimize`; when nothing satisfies the constraint it fails
with `PackageNotFound` (src/lib/retrieve/mod.rs:140-163). -/
theorem c6_best_index (lockfile : List Summary)
    (checkout : Version → Option Version)
    (directVer : Except ErrorKind Version) (rootVer : Version)
    (entries : List Version) (pkg : PackageId) (con : Version → Bool)
    (minimize : Bool) (r : Nat)
    (hmiss : List.find? (fun s => decide (s.id = pkg)) lockfile = none)
    (hres : pkg.resolution = Res.index r)
    (hsorted : List.Pairwise (fun a b => Version.leB a b = true) entries) :
    ((entries.filter con).filter (fun v => !v.isPre) = [] →
      (entries.filter con).filter Version.isPre = [] →
      Retriever.best lockfile checkout directVer rootVer entries pkg con
        minimize = Except.error ErrorKind.packageNotFound) ∧
    (∀ v vs, (entries.filter con).filter (fun v => !v.isPre) = v :: vs →
      ∃ m, Retriever.best lockfile checkout directVer rootVer entries pkg con
          minimize = Except.ok m ∧
        m ∈ (entries.filter con).filter (fun v => !v.isPre) ∧
        (minimize = false →
          ∀ x ∈ (entries.filter con).filter (fun v => !v.isPre),
            Version.leB x m = true) ∧
        (minimize = true →
          ∀ x ∈ (entries.filter con).filter (fun v => !v.isPre),
            Version.leB m x = true)) ∧
    ((entries.filter con).filter (fun v => !v.isPre) = [] →
      ∀ w ws, (entries.filter con).filter Version.isPre = w :: ws →
      ∃ m, Retriever.best lockfile checkout directVer rootVer entries pkg con
          minimize = Except.ok m ∧
        m ∈ (entries.filter con).filter Version.isPre ∧
        (minimize = false →
          ∀ x ∈ (entries.filter con).filter Version.isPre,
            Version.leB x m = true) ∧
        (minimize = true →
          ∀ x ∈ (entries.filter con).filter Version.isPre,
            Version.leB m x = true)) := by
  have hnotc : (not ∘ Version.isPre) = (fun v : Version => !v.isPre) := rfl
  have hbase : Retriever.best lockfile checkout directVer rootVer entries pkg
      con minimize =
      (match ((entries.filter con).partition Version.isPre).2 with
       | v :: vs =>
         Except.ok (if minimize then v else vs.getLastD v)
       | [] =>
         match ((entries.filter con).partition Version.isPre).1 with
         | w :: ws => Except.ok (if minimize then w else ws.getLastD w)
         | [] => Except.error ErrorKind.packageNotFound) := by
    unfold Retriever.best
    rw [hmiss, hres]
    rfl
  rw [List.partition_eq_filter_filter, hnotc] at hbase
  have hsat : List.Pairwise (fun a b => Version.leB a b = true)
      (entries.filter con) := List.Pairwise.filter _ hsorted
  have hstableSorted : List.Pairwise (fun a b => Version.leB a b = true)
      ((entries.filter con).filter (fun v => !v.isPre)) :=
    List.Pairwise.filter _ hsat
  have hpreSorted : List.Pairwise (fun a b => Version.leB a b = true)
      ((entries.filter con).filter Version.isPre) :=
    List.Pairwise.filter _ hsat
  refine ⟨?_, ?_, ?_⟩
  · intro h1 h2
    rw [hbase, h1, h2]
  · intro v vs hcons
    rw [hbase, hcons]
    rw [hcons] at hstableSorted
    refine ⟨if minimize then v else vs.getLastD v, rfl, ?_, ?_, ?_⟩
    · cases minimize with
      | false =>
        simpa using (sorted_getLastD_max Version.leB_refl vs v hstableSorted).1
      | true => simp
    · intro hmin
      subst hmin
      simpa using (sorted_getLastD_max Version.leB_refl vs v hstableSorted).2
    · intro hmin
      subst hmin
      simpa using sorted_head_min Version.leB_refl v vs hstableSorted
  · intro h1 w ws hcons
    rw [hbase, h1, hcons]
    rw [hcons] at hpreSorted
    refine ⟨if minimize then w else ws.getLastD w, rfl, ?_, ?_, ?_⟩
    · cases minimize with
      | false =>
        simpa using (sorted_getLastD_max Version.leB_refl ws w hpreSorted).1
      | true => simp
    · intro hmin
      subst hmin
      simpa using (sorted_getLastD_max Version.leB_refl ws w hpreSorted).2
    · intro hmin
      subst hmin
      simpa using sorted_head_min Version.leB_refl w ws hpreSorted

/-- Witness for C6: index `[1.0.0, 1.0.1, 1.0.2-pre.1]`, constraint
`patch ≥ 1`; the stable pool is `[1.0.1]` and `best` returns `1.0.1`. -/
theorem c6_best_index_witness :
    ∃ m, Retriever.best [] (fun _ => none)
        (Except.error ErrorKind.packageNotFound) (verP 9)
        [verP 0, verP 1, ⟨1, 0, 2, [1]⟩] ⟨5, Res.index 0⟩
        (fun x => decide (1 ≤ x.patch)) false = Except.ok m ∧
      m ∈ ([verP 0, verP 1, ⟨1, 0, 2, [1]⟩].filter
          (fun x => decide (1 ≤ x.patch))).filter (fun v => !v.isPre) ∧
      (false = false →
        ∀ x ∈ ([verP 0, verP 1, ⟨1, 0, 2, [1]⟩].filter
            (fun x => decide (1 ≤ x.patch))).filter (fun v => !v.isPre),
          Version.leB x m = true) ∧
      (false = true →
        ∀ x ∈ ([verP 0, verP 1, ⟨1, 0, 2, [1]⟩].filter
            (fun x => decide (1 ≤ x.patch))).filter (fun v => !v.isPre),
          Version.leB m x = true) :=
  (c6_best_index [] (fun _ => none) (Except.error ErrorKind.packageNotFound)
      (verP 9) [verP 0, verP 1, ⟨1, 0, 2, [1]⟩] ⟨5, Res.index 0⟩
      (fun x => decide (1 ≤ x.patch)) false 0 rfl rfl
      (by decide)).2.1 (verP 1) [] (by decide)

/-! ### C1 — the widening scans of `Retriever::incompats` -/

/-- A list without key-matching dependencies leaves the inner-loop
accumulator untouched. -/
theorem foldl_depScanStep_no_match {Req : Type}
    (relation : Req → Req → Relation) (dep : Dep Req) (newVer : Version)
    (l : List (Dep Req)) (acc : Bool × Version)
    (h : ∀ nd ∈ l, ¬(dep.name = nd.name ∧ dep.index = nd.index)) :
    l.foldl (depScanStep relation dep newVer) acc = acc := by
  induction l generalizing acc with
  | nil => rfl
  | cons nd t ih =>
    have hnd := h nd (List.mem_cons_self nd t)
    rw [List.foldl_cons, depScanStep, if_neg hnd]
    exact ih acc (fun u hu => h u (List.mem_cons_of_mem _ hu))

/-- Without key-matching dependencies, an entry does not refine. -/
theorem refinesB_no_match {Req : Type} (relation : Req → Req → Relation)
    (dep : Dep Req) (l : List (Dep Req))
    (h : ∀ nd ∈ l, ¬(dep.name = nd.name ∧ dep.index = nd.index)) :
    refinesB relation dep ⟨l⟩ = false := by
  rw [refinesB]
  rw [List.any_eq_false]
  intro nd hnd
  simp only [Bool.and_eq_true, decide_eq_true_eq, not_and]
  intro hk
  exact absurd hk (h nd hnd)

/-- With at most one key-matching dependency in the scanned entry, the
inner loop computes exactly the refinement bit, and moves the bound to the
scanned version exactly when the entry refines. -/
theorem depScan_eq {Req : Type} (relation : Req → Req → Relation)
    (dep : Dep Req) (newVer bound : Version) (l : List (Dep Req))
    (h : l.countP
        (fun nd => decide (dep.name = nd.name ∧ dep.index = nd.index)) ≤ 1) :
    depScan relation dep newVer l bound =
      (refinesB relation dep ⟨l⟩,
        if refinesB relation dep ⟨l⟩ then newVer else bound) := by
  induction l with
  | nil => rfl
  | cons nd t ih =>
    by_cases hm : dep.name = nd.name ∧ dep.index = nd.index
    · have hcnt : t.countP
          (fun nd => decide (dep.name = nd.name ∧ dep.index = nd.index)) = 0 := by
        rw [List.countP_cons] at h
        rw [show decide (dep.name = nd.name ∧ dep.index = nd.index) = true
          from by simp [hm.1, hm.2]] at h
        rw [if_pos rfl] at h
        omega
      have hnomatch : ∀ u ∈ t, ¬(dep.name = u.name ∧ dep.index = u.index) := by
        intro u hu
        have := List.countP_eq_zero.mp hcnt u hu
        simpa using this
      have hrefT : refinesB relation dep ⟨t⟩ = false :=
        refinesB_no_match relation dep t hnomatch
      by_cases hrel : relation dep.req nd.req = Relation.equal ∨
          relation dep.req nd.req = Relation.superset
      · have hstep : depScanStep relation dep newVer (false, bound) nd =
            (true, newVer) := by
          rw [depScanStep, if_pos hm, if_pos hrel]
        have hrefC : refinesB relation dep ⟨nd :: t⟩ = true := by
          rw [refinesB, List.any_cons]
          simp only [Bool.or_eq_true]
          left
          simp [hm.1, hm.2, hrel]
        rw [depScan, List.foldl_cons, hstep,
          foldl_depScanStep_no_match relation dep newVer t _ hnomatch,
          hrefC]
        simp
      · have hstep : depScanStep relation dep newVer (false, bound) nd =
            (false, bound) := by
          rw [depScanStep, if_pos hm, if_neg hrel]
        have hrefC : refinesB relation dep ⟨nd :: t⟩ = false := by
          rw [refinesB, List.any_cons]
          simp only [Bool.or_eq_false_iff]
          constructor
          · simp only [Bool.and_eq_false_iff]
            right
            simp only [Bool.or_eq_false_iff]
            push_neg at hrel
            simp [hrel.1, hrel.2]
          · rw [refinesB] at hrefT
            exact hrefT
        rw [depScan, List.foldl_cons, hstep,
          foldl_depScanStep_no_match relation dep newVer t _ hnomatch,
          hrefC]
        simp
    · have hcnt : t.countP
          (fun nd => decide (dep.name = nd.name ∧ dep.index = nd.index)) ≤ 1 := by
        rw [List.countP_cons] at h
        rw [decide_eq_false hm] at h
        omega
      have hstep : depScanStep relation dep newVer (false, bound) nd =
          (false, bound) := by
        rw [depScanStep, if_neg hm]
      have hrefC : refinesB relation dep ⟨nd :: t⟩ =
          refinesB relation dep ⟨t⟩ := by
        rw [refinesB, refinesB, List.any_cons]
        simp only [Bool.or_eq_true, decide_eq_true_eq]
        have : (decide (dep.name = nd.name ∧ dep.index = nd.index) &&
            (decide (relation dep.req nd.req = Relation.equal) ||
              decide (relation dep.req nd.req = Relation.superset))) = false := by
          simp [hm]
        rw [this]
        simp
      rw [depScan, List.foldl_cons, hstep, hrefC]
    -- remaining: reduce the cons fold to the tail fold
      exact ih hcnt

/-- Each entry's dependency list mentions each dependency key at most once
when the key projection is duplicate-free. -/
theorem countP_key_le_one {Req : Type} (l : List (Dep Req))
    (hnd : (l.map (fun nd => (nd.name, nd.index))).Nodup) (dep : Dep Req) :
    l.countP
      (fun nd => decide (dep.name = nd.name ∧ dep.index = nd.index)) ≤ 1 := by
  induction l with
  | nil => simp
  | cons nd t ih =>
    rw [List.map_cons, List.nodup_cons] at hnd
    rw [List.countP_cons]
    by_cases hm : dep.name = nd.name ∧ dep.index = nd.index
    · have hzero : t.countP
          (fun nd => decide (dep.name = nd.name ∧ dep.index = nd.index)) = 0 := by
        rw [List.countP_eq_zero]
        intro u hu
        simp only [decide_eq_true_eq]
        intro hk
        refine hnd.1 ?_
        rw [List.mem_map]
        refine ⟨u, hu, ?_⟩
        rw [← hk.1, ← hk.2, hm.1, hm.2]
    -- the duplicate key would appear in the mapped tail
      rw [hzero, show decide (dep.name = nd.name ∧ dep.index = nd.index) = true
        from by simp [hm.1, hm.2]]
      simp
    · rw [decide_eq_false hm]
      simp only [Bool.false_eq_true, if_false, Nat.add_zero]
      exact ih hnd.2

/-- Transport the at-most-one-key hypothesis to arbitrary positions (out of
range the default entry has no dependencies). -/
theorem countP_key_getD {Req : Type} (entries : Entries Req) (dep : Dep Req)
    (hkeys : ∀ e ∈ entries,
      (e.2.dependencies.map (fun nd => (nd.name, nd.index))).Nodup) (k : Nat) :
    ((entries.getD k (default, ⟨[]⟩)).2.dependencies.countP
      (fun nd => decide (dep.name = nd.name ∧ dep.index = nd.index))) ≤ 1 := by
  by_cases hk : k < entries.length
  · exact countP_key_le_one _
      (hkeys _ (List.getD_eq_getElem entries _ hk ▸ List.getElem_mem hk)) dep
  · rw [List.getD_eq_getElem?_getD, List.getElem?_eq_none (Nat.le_of_not_lt hk)]
    simp

/-- `depScan_eq` stated on an index record (structure eta folds the record
back together). -/
theorem depScan_eq_entry {Req : Type} (relation : Req → Req → Relation)
    (dep : Dep Req) (newVer bound : Version) (e : IndexEntry Req)
    (h : e.dependencies.countP
        (fun nd => decide (dep.name = nd.name ∧ dep.index = nd.index)) ≤ 1) :
    depScan relation dep newVer e.dependencies bound =
      (refinesB relation dep e,
        if refinesB relation dep e then newVer else bound) :=
  depScan_eq relation dep newVer bound e.dependencies h

/-- Behaviour of the downward scan: it never passes the start, every
position it passed refines, the position below its stop (if any) does not,
and the returned lower bound is the version at the stop position (the start
version when it never moved). -/
theorem scanLeft_spec {Req : Type} (relation : Req → Req → Relation)
    (entries : Entries Req) (dep : Dep Req)
    (hkeys : ∀ e ∈ entries,
      (e.2.dependencies.map (fun nd => (nd.name, nd.index))).Nodup) :
    ∀ (k : Nat) (lower : Version) (lix : Nat) (low : Version),
      scanLeft relation entries dep k lower = (lix, low) →
      lix ≤ k ∧
      (∀ m, lix ≤ m → m < k → refinesAt relation entries dep m = true) ∧
      (0 < lix → refinesAt relation entries dep (lix - 1) = false) ∧
      low = (if lix = k then lower else
        (entries.getD lix (default, ⟨[]⟩)).1) := by
  intro k
  induction k with
  | zero =>
    intro lower lix low h
    simp only [scanLeft] at h
    injection h with h1 h2
    subst h1
    subst h2
    exact ⟨Nat.le_refl 0, fun m h1 h2 => absurd h2 (Nat.not_lt_zero m),
      fun h0 => absurd h0 (Nat.lt_irrefl 0), by rw [if_pos rfl]⟩
  | succ k ih =>
    intro lower lix low h
    simp only [scanLeft] at h
    rw [depScan_eq_entry relation dep _ _ _
      (countP_key_getD entries dep hkeys k)] at h
    by_cases hR : refinesAt relation entries dep k = true
    · rw [show refinesB relation dep (entries.getD k (default, ⟨[]⟩)).2 =
          refinesAt relation entries dep k from rfl, hR] at h
      simp only [if_true] at h
      obtain ⟨h1, h2, h3, h4⟩ := ih _ _ _ h
      refine ⟨h1.trans (Nat.le_succ k), ?_, h3, ?_⟩
      · intro m hm1 hm2
        by_cases hmk : m < k
        · exact h2 m hm1 hmk
        · have : m = k := by omega
          subst this
          exact hR
      · rw [if_neg (by omega)]
        by_cases hlk : lix = k
        · rw [if_pos hlk] at h4
          rw [h4, hlk]
        · rw [if_neg hlk] at h4
          exact h4
    · rw [show refinesB relation dep (entries.getD k (default, ⟨[]⟩)).2 =
          refinesAt relation entries dep k from rfl] at h
      rw [Bool.not_eq_true] at hR
      rw [hR] at h
      simp only [Bool.false_eq_true, if_false] at h
      injection h with h1 h2
      subst h1
      subst h2
      refine ⟨Nat.le_refl _, fun m hm1 hm2 => absurd hm2 (by omega),
        fun _ => ?_, by rw [if_pos rfl]⟩
      rw [Nat.succ_sub_one]
      exact hR

/-- Behaviour of the upward scan (gas form): starting at `rix` with exactly
`(length − 1) − rix` gas, the scan never retreats, stops within the index,
every position it passed refines, the position above its stop (if any) does
not, and the returned upper bound is the version at the stop position. -/
theorem scanRightAux_spec {Req : Type} (relation : Req → Req → Relation)
    (entries : Entries Req) (dep : Dep Req)
    (hkeys : ∀ e ∈ entries,
      (e.2.dependencies.map (fun nd => (nd.name, nd.index))).Nodup) :
    ∀ (gas rix : Nat) (upper : Version) (rix' : Nat) (up : Version),
      gas + rix = entries.length - 1 →
      scanRightAux relation entries dep gas rix upper = (rix', up) →
      rix ≤ rix' ∧ rix' ≤ entries.length - 1 ∧
      (∀ m, rix < m → m ≤ rix' → refinesAt relation entries dep m = true) ∧
      (rix' < entries.length - 1 →
        refinesAt relation entries dep (rix' + 1) = false) ∧
      up = (if rix' = rix then upper else
        (entries.getD rix' (default, ⟨[]⟩)).1) := by
  intro gas
  induction gas with
  | zero =>
    intro rix upper rix' up hg h
    simp only [scanRightAux] at h
    injection h with h1 h2
    subst h1
    subst h2
    refine ⟨Nat.le_refl _, by omega,
      fun m hm1 hm2 => absurd (Nat.lt_of_lt_of_le hm1 hm2) (Nat.lt_irrefl _),
      fun hlt => absurd hlt (by omega), by rw [if_pos rfl]⟩
  | succ gas ih =>
    intro rix upper rix' up hg h
    simp only [scanRightAux] at h
    rw [depScan_eq_entry relation dep _ _ _
      (countP_key_getD entries dep hkeys (rix + 1))] at h
    by_cases hR : refinesAt relation entries dep (rix + 1) = true
    · rw [show refinesB relation dep
          (entries.getD (rix + 1) (default, ⟨[]⟩)).2 =
          refinesAt relation entries dep (rix + 1) from rfl, hR] at h
      simp only [if_true] at h
      obtain ⟨h1, h2, h3, h4, h5⟩ := ih (rix + 1) _ _ _ (by omega) h
      refine ⟨by omega, h2, ?_, h4, ?_⟩
      · intro m hm1 hm2
        by_cases hmr : m = rix + 1
        · subst hmr
          exact hR
        · exact h3 m (by omega) hm2
      · rw [if_neg (by omega)]
        by_cases hrr : rix' = rix + 1
        · rw [if_pos hrr] at h5
          rw [h5, hrr]
        · rw [if_neg hrr] at h5
          exact h5
    · rw [show refinesB relation dep
          (entries.getD (rix + 1) (default, ⟨[]⟩)).2 =
          refinesAt relation entries dep (rix + 1) from rfl] at h
      rw [Bool.not_eq_true] at hR
      rw [hR] at h
      simp only [Bool.false_eq_true, if_false] at h
      injection h with h1 h2
      subst h1
      subst h2
      exact ⟨Nat.le_refl _, by omega,
        fun m hm1 hm2 => absurd (Nat.lt_of_lt_of_le hm1 hm2) (Nat.lt_irrefl _),
        fun _ => hR, by rw [if_pos rfl]⟩

/-- What a successful `find_full` position means: the index is in range and
holds the searched key. -/
theorem findIdx?_spec {α : Type} (d : α) (p : α → Bool) :
    ∀ (l : List α) (j i : Nat), List.findIdx? p l j = some i →
      j ≤ i ∧ i - j < l.length ∧ p (l.getD (i - j) d) = true := by
  intro l
  induction l with
  | nil =>
    intro j i h
    simp [List.findIdx?] at h
  | cons a t ih =>
    intro j i h
    rw [List.findIdx?_cons] at h
    by_cases hp : p a = true
    · rw [if_pos hp] at h
      injection h with h1
      subst h1
      exact ⟨Nat.le_refl _, by simp, by simpa using hp⟩
    · rw [if_neg hp] at h
      obtain ⟨h1, h2, h3⟩ := ih (j + 1) i h
      refine ⟨by omega, ?_, ?_⟩
      · simp only [List.length_cons]
        omega
      · have hij : i - j = (i - (j + 1)) + 1 := by omega
        rw [hij, List.getD_cons_succ]
        exact h3

/-- Unfolding `incompatsIndex` at a found version. -/
theorem incompatsIndex_eq {Req : Type} (relation : Req → Req → Relation)
    (complement : Req → Req) (entries : Entries Req) (ver : Version)
    (ix : Nat) (entry : IndexEntry Req)
    (hfull : getFull entries ver = some (ix, entry)) :
    incompatsIndex relation complement entries ver =
      Except.ok (entry.dependencies.map (fun dep =>
        let left := scanLeft relation entries dep ix ver
        let right := scanRight relation entries dep entries.length ix ver
        let nl : Interval :=
          if left.1 = 0 ∧ right.1 = entries.length - 1 then .unbounded
          else .closed left.2 false
        let nu : Interval :=
          if left.1 = 0 ∧ right.1 = entries.length - 1 then .unbounded
          else .closed right.2 false
        ⟨nl, nu, dep.name, dep.index, complement dep.req⟩)) := by
  unfold incompatsIndex
  rw [hfull]

/-- C1: at an `Index`-resolved summary, `incompats` emits exactly one
incompatibility per dependency declared at the chosen version.  For each
dependency the two scans walk outward from the chosen index: they stop at
the first version on each side whose declared constraint is not `Equal` or
a `Superset` of the chosen version's (`refinesAt`), every version inside the
returned bounds refines, the returned interval ends are the versions at the
stop positions, and both ends become `Unbounded` exactly when the range
covers the whole index.  The uniqueness hypothesis says no index record
declares the same dependency key twice.  The closed conjunct is spec
scenario 7: an index `1.0.0..1.0.3 → Q ^1`, `1.0.4 → Q ^2` yields, for
`P@1.0.2`, a single incompatibility over `[1.0.0, 1.0.3]`. -/
theorem c1_incompats_widening :
    (∀ (Req : Type) (relation : Req → Req → Relation) (complement : Req → Req)
        (entries : Entries Req) (ver : Version) (ix : Nat)
        (entry : IndexEntry Req),
        getFull entries ver = some (ix, entry) →
        (∀ e ∈ entries,
          (e.2.dependencies.map (fun nd => (nd.name, nd.index))).Nodup) →
        ∃ res, incompatsIndex relation complement entries ver = Except.ok res ∧
          res.length = entry.dependencies.length ∧
          ∀ dep ∈ entry.dependencies, ∃ lix lower rix upper,
            scanLeft relation entries dep ix ver = (lix, lower) ∧
            scanRight relation entries dep entries.length ix ver =
              (rix, upper) ∧
            lix ≤ ix ∧ ix ≤ rix ∧ rix ≤ entries.length - 1 ∧
            (∀ m, lix ≤ m → m < ix → refinesAt relation entries dep m = true) ∧
            (∀ m, ix < m → m ≤ rix →
              refinesAt relation entries dep m = true) ∧
            (0 < lix → refinesAt relation entries dep (lix - 1) = false) ∧
            (rix < entries.length - 1 →
              refinesAt relation entries dep (rix + 1) = false) ∧
            lower = (entries.getD lix (default, ⟨[]⟩)).1 ∧
            upper = (entries.getD rix (default, ⟨[]⟩)).1 ∧
            (⟨(if lix = 0 ∧ rix = entries.length - 1 then Interval.unbounded
                else Interval.closed lower false),
              (if lix = 0 ∧ rix = entries.length - 1 then Interval.unbounded
                else Interval.closed upper false),
              dep.name, dep.index, complement dep.req⟩ : Incompat Req) ∈ res) ∧
    incompatsIndex relEx compEx entriesEx (verP 2) =
      Except.ok [⟨Interval.closed (verP 0) false,
        Interval.closed (verP 3) false, 7, 0, compEx 1⟩] := by
  constructor
  · intro Req relation complement entries ver ix entry hfull hkeys
    have hfind : List.findIdx? (fun e => decide (e.1 = ver)) entries = some ix ∧
        entry = (entries.getD ix (default, ⟨[]⟩)).2 := by
      unfold getFull at hfull
      cases hidx : List.findIdx? (fun e => decide (e.1 = ver)) entries with
      | none => rw [hidx] at hfull; simp at hfull
      | some j =>
        rw [hidx] at hfull
        rw [Option.map_some'] at hfull
        injection hfull with hff
        injection hff with hf1 hf2
        subst hf1
        exact ⟨rfl, hf2.symm⟩
    obtain ⟨hidx, hentry⟩ := hfind
    obtain ⟨-, hixlen, hpix⟩ :=
      findIdx?_spec (default, (⟨[]⟩ : IndexEntry Req))
        (fun e => decide (e.1 = ver)) entries 0 ix hidx
    rw [Nat.sub_zero] at hixlen hpix
    have hver : (entries.getD ix (default, ⟨[]⟩)).1 = ver := by
      simpa using hpix
    refine ⟨_, incompatsIndex_eq relation complement entries ver ix entry
      hfull, List.length_map _ _, ?_⟩
    intro dep hdep
    rcases hsl : scanLeft relation entries dep ix ver with ⟨lix, low⟩
    rcases hsr : scanRight relation entries dep entries.length ix ver
      with ⟨rix, up⟩
    obtain ⟨hl1, hl2, hl3, hl4⟩ :=
      scanLeft_spec relation entries dep hkeys ix ver lix low hsl
    have hg : (entries.length - 1 - ix) + ix = entries.length - 1 := by omega
    obtain ⟨hr1, hr2, hr3, hr4, hr5⟩ :=
      scanRightAux_spec relation entries dep hkeys (entries.length - 1 - ix)
        ix ver rix up hg hsr
    have hlow : low = (entries.getD lix (default, ⟨[]⟩)).1 := by
      by_cases hlk : lix = ix
      · rw [if_pos hlk] at hl4
        rw [hl4, hlk, hver]
      · rw [if_neg hlk] at hl4
        exact hl4
    have hup : up = (entries.getD rix (default, ⟨[]⟩)).1 := by
      by_cases hrk : rix = ix
      · rw [if_pos hrk] at hr5
        rw [hr5, hrk, hver]
      · rw [if_neg hrk] at hr5
        exact hr5
    refine ⟨lix, low, rix, up, rfl, rfl, hl1, hr1, hr2, hl2, hr3, hl3, hr4,
      hlow, hup, ?_⟩
    refine List.mem_map.mpr ⟨dep, hdep, ?_⟩
    simp only [hsl, hsr]
  · rfl

/-- Witness for C1: the general part applied to scenario 7's index at the
chosen version `1.0.2`. -/
theorem c1_incompats_widening_witness :
    getFull entriesEx (verP 2) = some (2, entryQ 1) ∧
    (∀ e ∈ entriesEx,
      (e.2.dependencies.map (fun nd => (nd.name, nd.index))).Nodup) ∧
    ∃ res, incompatsIndex relEx compEx entriesEx (verP 2) = Except.ok res ∧
      res.length = (entryQ 1).dependencies.length ∧
      ∀ dep ∈ (entryQ 1).dependencies, ∃ lix lower rix upper,
        scanLeft relEx entriesEx dep 2 (verP 2) = (lix, lower) ∧
        scanRight relEx entriesEx dep entriesEx.length 2 (verP 2) =
          (rix, upper) ∧
        lix ≤ 2 ∧ 2 ≤ rix ∧ rix ≤ entriesEx.length - 1 ∧
        (∀ m, lix ≤ m → m < 2 → refinesAt relEx entriesEx dep m = true) ∧
        (∀ m, 2 < m → m ≤ rix → refinesAt relEx entriesEx dep m = true) ∧
        (0 < lix → refinesAt relEx entriesEx dep (lix - 1) = false) ∧
        (rix < entriesEx.length - 1 →
          refinesAt relEx entriesEx dep (rix + 1) = false) ∧
        lower = (entriesEx.getD lix (default, ⟨[]⟩)).1 ∧
        upper = (entriesEx.getD rix (default, ⟨[]⟩)).1 ∧
        (⟨(if lix = 0 ∧ rix = entriesEx.length - 1 then Interval.unbounded
            else Interval.closed lower false),
          (if lix = 0 ∧ rix = entriesEx.length - 1 then Interval.unbounded
            else Interval.closed upper false),
          dep.name, dep.index, compEx dep.req⟩ : Incompat Nat) ∈ res :=
  ⟨by decide, by decide,
    c1_incompats_widening.1 Nat relEx compEx entriesEx (verP 2) 2 (entryQ 1)
      (by decide) (by decide)⟩

/-! ### C5 — the lockfile round trip -/

/-- Membership after `IndexSet` deduplication (generalized accumulator). -/
theorem mem_foldl_dedup {α : Type} [DecidableEq α] :
    ∀ (l : List α) (acc : List α) (x : α),
      (x ∈ l.foldl (fun acc y => if y ∈ acc then acc else acc ++ [y]) acc) ↔
        x ∈ acc ∨ x ∈ l := by
  intro l
  induction l with
  | nil => intro acc x; simp
  | cons y t ih =>
    intro acc x
    rw [List.foldl_cons, ih]
    by_cases hy : y ∈ acc
    · rw [if_pos hy]
      constructor
      · rintro (h | h)
        · exact Or.inl h
        · exact Or.inr (List.mem_cons_of_mem _ h)
      · rintro (h | h)
        · exact Or.inl h
        · rcases List.mem_cons.mp h with h | h
          · subst h
            exact Or.inl hy
          · exact Or.inr h
    · rw [if_neg hy]
      constructor
      · rintro (h | h)
        · rcases List.mem_append.mp h with h | h
          · exact Or.inl h
          · rw [List.mem_singleton] at h
            subst h
            exact Or.inr (List.mem_cons_self _ _)
        · exact Or.inr (List.mem_cons_of_mem _ h)
      · rintro (h | h)
        · exact Or.inl (List.mem_append_left _ h)
        · rcases List.mem_cons.mp h with h | h
          · subst h
            exact Or.inl (List.mem_append_right _ (List.mem_singleton_self _))
          · exact Or.inr h

/-- `IndexSet::from_iter` keeps exactly the input's elements. -/
theorem mem_dedupKeepFirst {α : Type} [DecidableEq α] (l : List α) (x : α) :
    x ∈ dedupKeepFirst l ↔ x ∈ l := by
  rw [dedupKeepFirst, mem_foldl_dedup]
  simp

/-- Everything the worklist traversal emits is a valid node index. -/
theorem subTreeAux_lt (g : SGraph) :
    ∀ (fuel : Nat) (st vis : List Nat),
      (∀ y ∈ vis, y < g.nodes.length) →
      ∀ x ∈ g.subTreeAux fuel st vis, x < g.nodes.length := by
  intro fuel
  induction fuel with
  | zero =>
    intro st vis hv x hx
    rw [SGraph.subTreeAux, List.mem_reverse] at hx
    exact hv x hx
  | succ fuel ih =>
    intro st vis hv x hx
    cases st with
    | nil =>
      rw [SGraph.subTreeAux, List.mem_reverse] at hx
      exact hv x hx
    | cons n rest =>
      rw [SGraph.subTreeAux] at hx
      by_cases hn : n ∈ vis ∨ g.nodes.length ≤ n
      · rw [if_pos hn] at hx
        exact ih rest vis hv x hx
      · rw [if_neg hn] at hx
        refine ih (rest ++ g.children n) (n :: vis) ?_ x hx
        intro y hy
        rcases List.mem_cons.mp hy with hy | hy
        · subst hy
          push_neg at hn
          exact hn.2
        · exact hv y hy

/-- Indices in the emitted sub-tree are valid. -/
theorem subTree_lt (g : SGraph) (start : Nat) :
    ∀ x ∈ g.subTree start, x < g.nodes.length := by
  intro x hx
  exact subTreeAux_lt g _ [start] [] (by simp) x hx

/-- In a duplicate-free list, searching for the `i`-th element finds `i`. -/
theorem findIdx?_getD_of_nodup {α : Type} [DecidableEq α] (d : α) :
    ∀ (l : List α), l.Nodup → ∀ i, i < l.length → ∀ k,
      List.findIdx? (fun t => decide (t = l.getD i d)) l k = some (i + k) := by
  intro l
  induction l with
  | nil =>
    intro _ i hi
    simp at hi
  | cons a t ih =>
    intro hnd i hi k
    rw [List.nodup_cons] at hnd
    cases i with
    | zero =>
      rw [List.findIdx?_cons, List.getD_cons_zero, if_pos (by simp)]
      rw [Nat.zero_add]
    | succ i =>
      rw [List.getD_cons_succ]
      have hit : i < t.length := by
        simp only [List.length_cons] at hi
        omega
      have hne : ¬(a = t.getD i d) := by
        intro hh
        refine hnd.1 ?_
        rw [hh, List.getD_eq_getElem t d hit]
        exact List.getElem_mem hit
      rw [List.findIdx?_cons, if_neg (by simpa using hne)]
      rw [ih hnd.2 i hit (k + 1)]
      congr 1
      omega

/-- Edge endpoints below the original length read the same summary after the
node arena grows. -/
theorem pairUp_stable (nodes t : List Summary) (e : Nat × Nat)
    (h1 : e.1 < nodes.length) (h2 : e.2 < nodes.length) :
    pairUp (nodes ++ t) e = pairUp nodes e := by
  unfold pairUp
  rw [List.getD_append _ _ _ _ h1, List.getD_append _ _ _ _ h2]

/-- `getOrAdd` grows the arena by at most the new summary, keeps the edge
list, returns a valid index reading back the summary, and its arena holds
exactly the old summaries plus the new one. -/
theorem getOrAdd_spec (st : BuildSt) (s : Summary) :
    (∃ t, (getOrAdd st s).1.nodes = st.nodes ++ t) ∧
    (getOrAdd st s).1.edges = st.edges ∧
    (getOrAdd st s).2 < (getOrAdd st s).1.nodes.length ∧
    (getOrAdd st s).1.nodes.getD (getOrAdd st s).2 default = s ∧
    (∀ x, x ∈ (getOrAdd st s).1.nodes ↔ x ∈ st.nodes ∨ x = s) := by
  unfold getOrAdd
  cases hfind : st.nodes.findIdx? (fun t => decide (t = s)) with
  | some i =>
    obtain ⟨-, hilen, hpi⟩ :=
      findIdx?_spec (default : Summary) (fun t => decide (t = s)) st.nodes 0 i
        hfind
    rw [Nat.sub_zero] at hilen hpi
    have hgi : st.nodes.getD i default = s := by simpa using hpi
    have hsmem : s ∈ st.nodes := by
      rw [← hgi, List.getD_eq_getElem st.nodes default hilen]
      exact List.getElem_mem hilen
    refine ⟨⟨[], by simp⟩, rfl, hilen, hgi, ?_⟩
    intro x
    constructor
    · exact Or.inl
    · rintro (h | h)
      · exact h
      · subst h
        exact hsmem
  | none =>
    refine ⟨⟨[s], rfl⟩, rfl, ?_, ?_, ?_⟩
    · simp
    · rw [List.getD_append_right st.nodes [s] default st.nodes.length
        (Nat.le_refl _), Nat.sub_self, List.getD_cons_zero]
    · intro x
      simp [List.mem_append, List.mem_singleton]

/-- The dependency loop: the arena grows by exactly the unseen dependency
summaries, edges stay in range, and the edge list (viewed as summary pairs
against the final arena) gains one `(parent, dep)` pair per dependency, in
order. -/
theorem addDeps_spec (nix : Nat) :
    ∀ (ds : List Summary) (st : BuildSt),
      nix < st.nodes.length →
      (∀ e ∈ st.edges, e.1 < st.nodes.length ∧ e.2 < st.nodes.length) →
      (∃ t, (addDeps nix st ds).nodes = st.nodes ++ t) ∧
      (∀ e ∈ (addDeps nix st ds).edges,
        e.1 < (addDeps nix st ds).nodes.length ∧
        e.2 < (addDeps nix st ds).nodes.length) ∧
      (∀ x, x ∈ (addDeps nix st ds).nodes ↔ x ∈ st.nodes ∨ x ∈ ds) ∧
      (addDeps nix st ds).edges.map (pairUp (addDeps nix st ds).nodes) =
        st.edges.map (pairUp st.nodes) ++
          ds.map (fun d => (st.nodes.getD nix default, d)) := by
  intro ds
  induction ds with
  | nil =>
    intro st hnix hwf
    rw [show addDeps nix st [] = st from rfl]
    exact ⟨⟨[], by simp⟩, hwf, fun x => by simp, by simp⟩
  | cons d ds ih =>
    intro st hnix hwf
    obtain ⟨⟨t1, ht1⟩, hedges1, hdnix, hgd, hmem1⟩ := getOrAdd_spec st d
    have hlen1 : st.nodes.length ≤ (getOrAdd st d).1.nodes.length := by
      rw [ht1, List.length_append]
      omega
    have hstep : addDeps nix st (d :: ds) =
        addDeps nix
          { (getOrAdd st d).1 with
            edges := (getOrAdd st d).1.edges ++ [(nix, (getOrAdd st d).2)] }
          ds := rfl
    set st2 : BuildSt :=
      { (getOrAdd st d).1 with
        edges := (getOrAdd st d).1.edges ++ [(nix, (getOrAdd st d).2)] }
      with hst2
    have hst2nodes : st2.nodes = st.nodes ++ t1 := ht1
    have hst2edges : st2.edges = st.edges ++ [(nix, (getOrAdd st d).2)] := by
      rw [hst2, hedges1]
    have hnix2 : nix < st2.nodes.length := Nat.lt_of_lt_of_le hnix hlen1
    have hwf2 : ∀ e ∈ st2.edges,
        e.1 < st2.nodes.length ∧ e.2 < st2.nodes.length := by
      intro e he
      rw [hst2edges] at he
      rcases List.mem_append.mp he with he | he
      · obtain ⟨ha, hb⟩ := hwf e he
        exact ⟨Nat.lt_of_lt_of_le ha hlen1, Nat.lt_of_lt_of_le hb hlen1⟩
      · rw [List.mem_singleton] at he
        subst he
        exact ⟨hnix2, hdnix⟩
    obtain ⟨⟨t2, ht2⟩, hwfR, hmemR, hpairsR⟩ := ih st2 hnix2 hwf2
    rw [hstep]
    refine ⟨⟨t1 ++ t2, ?_⟩, hwfR, ?_, ?_⟩
    · rw [ht2, hst2nodes, List.append_assoc]
    · intro x
      rw [hmemR x, hmem1 x]
      constructor
      · rintro ((h | h) | h)
        · exact Or.inl h
        · exact Or.inr (h ▸ List.mem_cons_self _ _)
        · exact Or.inr (List.mem_cons_of_mem _ h)
      · rintro (h | h)
        · exact Or.inl (Or.inl h)
        · rcases List.mem_cons.mp h with h | h
          · exact Or.inl (Or.inr h)
          · exact Or.inr h
    · rw [hpairsR]
      have hmapst : st2.edges.map (pairUp st2.nodes) =
          st.edges.map (pairUp st.nodes) ++
            [(st.nodes.getD nix default, d)] := by
        rw [hst2edges, List.map_append]
        congr 1
        · refine List.map_congr_left ?_
          intro e he
          obtain ⟨ha, hb⟩ := hwf e he
          rw [hst2nodes]
          exact pairUp_stable st.nodes t1 e ha hb
        · rw [List.map_cons, List.map_nil]
          congr 1
          unfold pairUp
          rw [show ((nix, (getOrAdd st d).2) : Nat × Nat).1 = nix from rfl,
            show ((nix, (getOrAdd st d).2) : Nat × Nat).2 =
              (getOrAdd st d).2 from rfl]
          rw [show st2.nodes.getD (getOrAdd st d).2 default = d from hgd]
          rw [hst2nodes, List.getD_append _ _ _ _ hnix]
      have hgetnix : st2.nodes.getD nix default =
          st.nodes.getD nix default := by
        rw [hst2nodes, List.getD_append _ _ _ _ hnix]
      rw [hmapst, hgetnix, List.append_assoc, List.singleton_append,
        ← List.map_cons]

/-- The package loop: the final graph's arena holds exactly the summaries
mentioned by the processed packages, edges stay in range, and the summary
pairs of the edge list are exactly the `(package, dependency)` pairs of the
package list, in order. -/
theorem addPkgs_spec :
    ∀ (ps : List LockedPkg) (st : BuildSt),
      (∀ e ∈ st.edges, e.1 < st.nodes.length ∧ e.2 < st.nodes.length) →
      (∃ t, (addPkgs st ps).nodes = st.nodes ++ t) ∧
      (∀ e ∈ (addPkgs st ps).edges,
        e.1 < (addPkgs st ps).nodes.length ∧
        e.2 < (addPkgs st ps).nodes.length) ∧
      (∀ x, x ∈ (addPkgs st ps).nodes ↔ x ∈ st.nodes ∨
        ∃ p ∈ ps, x = p.sum ∨ x ∈ p.dependencies) ∧
      (addPkgs st ps).edges.map (pairUp (addPkgs st ps).nodes) =
        st.edges.map (pairUp st.nodes) ++
          ps.flatMap (fun p => p.dependencies.map (fun d => (p.sum, d))) := by
  intro ps
  induction ps with
  | nil =>
    intro st hwf
    rw [show addPkgs st [] = st from rfl]
    exact ⟨⟨[], by simp⟩, hwf, fun x => by simp, by simp⟩
  | cons p ps ih =>
    intro st hwf
    obtain ⟨⟨t1, ht1⟩, hedges1, hpnix, hgp, hmem1⟩ := getOrAdd_spec st p.sum
    have hlen1 : st.nodes.length ≤ (getOrAdd st p.sum).1.nodes.length := by
      rw [ht1, List.length_append]
      omega
    have hwf1 : ∀ e ∈ (getOrAdd st p.sum).1.edges,
        e.1 < (getOrAdd st p.sum).1.nodes.length ∧
        e.2 < (getOrAdd st p.sum).1.nodes.length := by
      intro e he
      rw [hedges1] at he
      obtain ⟨ha, hb⟩ := hwf e he
      exact ⟨Nat.lt_of_lt_of_le ha hlen1, Nat.lt_of_lt_of_le hb hlen1⟩
    obtain ⟨⟨t2, ht2⟩, hwf2, hmem2, hpairs2⟩ :=
      addDeps_spec (getOrAdd st p.sum).2 p.dependencies
        (getOrAdd st p.sum).1 hpnix hwf1
    have hstep : addPkgs st (p :: ps) =
        addPkgs (addDeps (getOrAdd st p.sum).2 (getOrAdd st p.sum).1
          p.dependencies) ps := rfl
    obtain ⟨⟨t3, ht3⟩, hwfR, hmemR, hpairsR⟩ :=
      ih (addDeps (getOrAdd st p.sum).2 (getOrAdd st p.sum).1 p.dependencies)
        hwf2
    rw [hstep]
    refine ⟨⟨t1 ++ (t2 ++ t3), ?_⟩, hwfR, ?_, ?_⟩
    · rw [ht3, ht2, ht1, List.append_assoc, List.append_assoc]
    · intro x
      rw [hmemR x, hmem2 x, hmem1 x]
      constructor
      · rintro (((h | h) | h) | ⟨q, hq, hqx⟩)
        · exact Or.inl h
        · exact Or.inr ⟨p, List.mem_cons_self _ _, Or.inl h⟩
        · exact Or.inr ⟨p, List.mem_cons_self _ _, Or.inr h⟩
        · exact Or.inr ⟨q, List.mem_cons_of_mem _ hq, hqx⟩
      · rintro (h | ⟨q, hq, hqx⟩)
        · exact Or.inl (Or.inl (Or.inl h))
        · rcases List.mem_cons.mp hq with hq | hq
          · subst hq
            rcases hqx with h | h
            · exact Or.inl (Or.inl (Or.inr h))
            · exact Or.inl (Or.inr h)
          · exact Or.inr ⟨q, hq, hqx⟩
    · rw [hpairsR, hpairs2, List.flatMap_cons]
      have hmapst : (getOrAdd st p.sum).1.edges.map
          (pairUp (getOrAdd st p.sum).1.nodes) =
          st.edges.map (pairUp st.nodes) := by
        rw [hedges1]
        refine List.map_congr_left ?_
        intro e he
        obtain ⟨ha, hb⟩ := hwf e he
        rw [ht1]
        exact pairUp_stable st.nodes t1 e ha hb
      rw [hmapst, hgp, List.append_assoc]

/-- The nodes of the rebuilt graph are the summaries of the lockfile. -/
theorem fromLockfile_nodes (pkgs : List LockedPkg) (x : Summary) :
    x ∈ (fromLockfile pkgs).nodes ↔
      ∃ p ∈ pkgs, x = p.sum ∨ x ∈ p.dependencies := by
  obtain ⟨-, -, hmem, -⟩ := addPkgs_spec pkgs ⟨[], []⟩ (by simp)
  rw [show (fromLockfile pkgs).nodes = (addPkgs ⟨[], []⟩ pkgs).nodes from rfl]
  rw [hmem x]
  simp

/-- The summary-pair view of the rebuilt graph's edges is exactly the
lockfile's `(package, dependency)` pairs. -/
theorem fromLockfile_edgeSums (pkgs : List LockedPkg) :
    SGraph.edgeSums (fromLockfile pkgs) =
      pkgs.flatMap (fun p => p.dependencies.map (fun d => (p.sum, d))) := by
  obtain ⟨-, -, -, hpairs⟩ := addPkgs_spec pkgs ⟨[], []⟩ (by simp)
  rw [show SGraph.edgeSums (fromLockfile pkgs) =
    (addPkgs ⟨[], []⟩ pkgs).edges.map (pairUp (addPkgs ⟨[], []⟩ pkgs).nodes)
    from rfl]
  rw [hpairs]
  simp

/-- `childSums` membership, through the edge list. -/
theorem mem_childSums (g : SGraph) (ix : Nat) (d : Summary) :
    d ∈ g.childSums ix ↔
      ∃ j, (ix, j) ∈ g.edges ∧ d = g.nodes.getD j default := by
  unfold SGraph.childSums SGraph.children
  rw [List.mem_map]
  constructor
  · rintro ⟨j, hj, rfl⟩
    rw [List.mem_map] at hj
    obtain ⟨e, he, rfl⟩ := hj
    rw [List.mem_filter] at he
    refine ⟨e.2, ?_, rfl⟩
    have he1 : e.1 = ix := by simpa using he.2
    rw [show ((ix, e.2) : Nat × Nat) = e from by rw [← he1]]
    exact he.1
  · rintro ⟨j, hj, rfl⟩
    refine ⟨j, ?_, rfl⟩
    rw [List.mem_map]
    refine ⟨(ix, j), ?_, rfl⟩
    rw [List.mem_filter]
    exact ⟨hj, by simp⟩

/-- The generated lockfile holds exactly one record per node (under
distinct summaries and full reachability): the node's summary with the
summaries of its children. -/
theorem toLockfile_mem (g : SGraph) (rix : Nat)
    (hroot : g.nodes.findIdx?
      (fun s => decide (s.id.resolution = Res.root)) = some rix)
    (hnd : g.nodes.Nodup)
    (hreach : ∀ i, i < g.nodes.length → i ∈ g.subTree rix) :
    ∃ pkgs, g.toLockfile = some pkgs ∧
      ∀ p, p ∈ pkgs ↔ ∃ ix, ix < g.nodes.length ∧
        p = ⟨g.nodes.getD ix default, g.childSums ix⟩ := by
  refine ⟨_, by rw [SGraph.toLockfile, hroot, Option.map_some'], ?_⟩
  intro p
  rw [mem_dedupKeepFirst, List.mem_map]
  constructor
  · rintro ⟨ix, hix, rfl⟩
    have hlt : ix < g.nodes.length := subTree_lt g rix ix hix
    refine ⟨ix, hlt, ?_⟩
    show (⟨g.nodes.getD ix default,
        g.childSums ((g.nodes.findIdx?
          (fun s => decide (s = g.nodes.getD ix default))).getD 0)⟩ :
      LockedPkg) = ⟨g.nodes.getD ix default, g.childSums ix⟩
    rw [findIdx?_getD_of_nodup default g.nodes hnd ix hlt 0]
    rfl
  · rintro ⟨ix, hlt, rfl⟩
    refine ⟨ix, hreach ix hlt, ?_⟩
    show (⟨g.nodes.getD ix default,
        g.childSums ((g.nodes.findIdx?
          (fun s => decide (s = g.nodes.getD ix default))).getD 0)⟩ :
      LockedPkg) = ⟨g.nodes.getD ix default, g.childSums ix⟩
    rw [findIdx?_getD_of_nodup default g.nodes hnd ix hlt 0]
    rfl

/-- C5 counterexample: a root graph with an unreachable second node does not
round-trip — the generated lockfile only walks the root's sub-tree, so the
unreachable summary is lost (the claim as stated, quantifying over every
graph with a root node, is false). -/
theorem c5_counterexample_unreachable :
    (∃ s ∈ gUnreachEx.nodes, s.id.resolution = Res.root) ∧
    gUnreachEx.toLockfile = some [⟨sumRootEx, []⟩] ∧
    sumAEx ∈ gUnreachEx.nodes ∧
    sumAEx ∉ (fromLockfile [⟨sumRootEx, []⟩]).nodes := by
  refine ⟨⟨sumRootEx, by decide, by decide⟩, by decide, by decide, by decide⟩

/-- C5 (amended): for a graph with a root node, pairwise-distinct summaries,
every node reachable from the root, and in-range edges, converting to a
lockfile and back yields a graph with the same summary set and the same
set of `(parent, dependency)` summary pairs. -/
theorem c5_lockfile_roundtrip (g : SGraph) (rix : Nat)
    (hroot : g.nodes.findIdx?
      (fun s => decide (s.id.resolution = Res.root)) = some rix)
    (hnd : g.nodes.Nodup)
    (hreach : ∀ i, i < g.nodes.length → i ∈ g.subTree rix)
    (hedge : ∀ e ∈ g.edges,
      e.1 < g.nodes.length ∧ e.2 < g.nodes.length) :
    ∃ pkgs, g.toLockfile = some pkgs ∧
      (∀ s, s ∈ (fromLockfile pkgs).nodes ↔ s ∈ g.nodes) ∧
      (∀ q, q ∈ SGraph.edgeSums (fromLockfile pkgs) ↔ q ∈ g.edgeSums) := by
  obtain ⟨pkgs, hpkgs, hpmem⟩ := toLockfile_mem g rix hroot hnd hreach
  refine ⟨pkgs, hpkgs, ?_, ?_⟩
  · intro s
    rw [fromLockfile_nodes]
    constructor
    · rintro ⟨p, hp, hs⟩
      obtain ⟨ix, hlt, rfl⟩ := (hpmem p).mp hp
      rcases hs with rfl | hs
      · rw [List.getD_eq_getElem g.nodes default hlt]
        exact List.getElem_mem hlt
      · obtain ⟨j, hj, rfl⟩ := (mem_childSums g ix s).mp hs
        have hjlt : j < g.nodes.length := (hedge _ hj).2
        rw [List.getD_eq_getElem g.nodes default hjlt]
        exact List.getElem_mem hjlt
    · intro hs
      obtain ⟨i, hi, rfl⟩ := List.mem_iff_getElem.mp hs
      refine ⟨⟨g.nodes.getD i default, g.childSums i⟩,
        (hpmem _).mpr ⟨i, hi, rfl⟩, Or.inl ?_⟩
      rw [List.getD_eq_getElem g.nodes default hi]
  · intro q
    rw [fromLockfile_edgeSums, List.mem_flatMap]
    unfold SGraph.edgeSums
    rw [List.mem_map]
    constructor
    · rintro ⟨p, hp, hq⟩
      obtain ⟨ix, hlt, rfl⟩ := (hpmem p).mp hp
      rw [List.mem_map] at hq
      obtain ⟨d, hd, rfl⟩ := hq
      obtain ⟨j, hj, rfl⟩ := (mem_childSums g ix d).mp hd
      exact ⟨(ix, j), hj, rfl⟩
    · rintro ⟨e, he, rfl⟩
      have he1 : e.1 < g.nodes.length := (hedge _ he).1
      refine ⟨⟨g.nodes.getD e.1 default, g.childSums e.1⟩,
        (hpmem _).mpr ⟨e.1, he1, rfl⟩, ?_⟩
      rw [List.mem_map]
      refine ⟨g.nodes.getD e.2 default, ?_, rfl⟩
      rw [mem_childSums]
      refine ⟨e.2, ?_, rfl⟩
      rw [show ((e.1, e.2) : Nat × Nat) = e from rfl]
      exact he

/-- Witness for C5 at the fully reachable three-node diamond-free graph
root→A, root→B, A→B. -/
theorem c5_lockfile_roundtrip_witness :
    ∃ pkgs, gRoundEx.toLockfile = some pkgs ∧
      (∀ s, s ∈ (fromLockfile pkgs).nodes ↔ s ∈ gRoundEx.nodes) ∧
      (∀ q, q ∈ SGraph.edgeSums (fromLockfile pkgs) ↔
        q ∈ gRoundEx.edgeSums) :=
  c5_lockfile_roundtrip gRoundEx 0 (by decide) (by decide)
    (by decide) (by decide)

end Elba
